import Mathlib

/-!
Verification of a serde <-> Lua value converter (src/ser.rs, src/de.rs, src/error.rs).

The development shallowly embeds:
* the mlua `Value` model (`Value` below), with tables as ordered key/value entry
  lists in enumeration order,
* the encoder `to_value` of src/ser.rs composed with serde's derived `Serialize`
  visit plans, as a function from a typed-value tree (`Data`) to a Lua value,
* the decoder `from_value` of src/de.rs composed with serde's derived
  `Deserialize` visitors, as a function from a target shape (`Shape`) and a Lua
  value to a typed value,
* the individual deserializer entry points (`deserialize_any`, `deserialize_seq`,
  the map/seq cursors, the enum variant access) and the map serializer state
  machine, as standalone functions mirroring the corresponding Rust items.

Modelling notes, fixed throughout:
* Machine integers: Lua integers are 64-bit signed; all serde integer widths are
  widened without range change, so integers are modelled as `Int`.
* Floats: `f64` payloads are opaque 64-bit patterns modelled as `Nat` (the
  converters never compute with floats, they only move them). A float is never
  equal to an integer in this model (Lua normalises integral float table keys to
  integer keys, so the coercing comparison is not exercised by table keys).
* Table identity: mlua compares tables by reference; the converters only build
  fresh tables and never compare a table with itself, so two table values are
  never equal in this model.
* Strings are valid UTF-8 Lean strings (mlua's to_str never fails on them).
-/

namespace SerdeMlua

/-- Error model of src/error.rs: a single message-carrying kind. To state which
error a code path produces we keep serde's error constructors
(invalid_type / invalid_value / invalid_length / custom) distinguishable;
each carries the strings serde would format into the message. -/
inductive Err where
  | invalidType (unexpected expected : String)
  | invalidValue (unexpected expected : String)
  | invalidLength (len : Nat) (expected : String)
  | custom (msg : String)
deriving DecidableEq

/-- mlua `Value`: Nil, Boolean, Integer, Number (opaque f64 bit pattern),
String, Table (entry list in the table's enumeration order), and `other`
standing for every remaining kind (Function, Thread, UserData,
LightUserData, Error). -/
inductive Value where
  | nil
  | boolean (b : Bool)
  | integer (n : Int)
  | number (bits : Nat)
  | str (s : String)
  | table (entries : List (Value × Value))
  | other

/-- A table is its list of key/value pairs in enumeration order. -/
abbrev Table := List (Value × Value)

/-- mlua's `PartialEq for Value`: structural on primitives; tables compare by
reference, and the converters never compare a table with itself, so table
comparison is `false` here; an Integer is never equal to a Number here (see the
module comment). -/
def valueEq : Value → Value → Bool
  | .nil, .nil => true
  | .boolean a, .boolean b => a == b
  | .integer a, .integer b => a == b
  | .number a, .number b => a == b
  | .str a, .str b => a == b
  | _, _ => false

/-- Raw lookup `t[k]`: the value of the first entry whose key equals `k`,
or Nil when there is none. -/
def tableGet (t : Table) (k : Value) : Value :=
  match t.find? (fun p => valueEq p.1 k) with
  | Option.some p => p.2
  | Option.none => Value.nil

/-- Lua assignment `t[k] = v` for a non-nil key: assigning Nil removes the
entry, otherwise an existing entry is updated in place and a fresh key is
appended in insertion order. -/
def replaceOrAppend : Table → Value → Value → Table
  | [], k, v => [(k, v)]
  | (k0, v0) :: rest, k, v =>
    if valueEq k0 k then (k0, v) :: rest else (k0, v0) :: replaceOrAppend rest k v

/-- Lua assignment `t[k] = v` ignoring the nil-key error case. -/
def tableSetRaw (t : Table) (k v : Value) : Table :=
  match v with
  | .nil => t.filter (fun p => !valueEq p.1 k)
  | _ => replaceOrAppend t k v

/-- mlua `Table::set`: a nil key raises a Lua error (stringified into the
single error kind by src/error.rs); otherwise `tableSetRaw`. -/
def tableSet (t : Table) (k v : Value) : Except Err Table :=
  match k with
  | .nil => .error (.custom "table index is nil")
  | _ => .ok (tableSetRaw t k v)

/-- Whether a value is Nil. -/
def Value.isNil : Value → Bool
  | .nil => true
  | _ => false

/-- Iteration of mlua `Table::sequence_values`: read t[i] for i = 1, 2, ...
until the first missing index. The fuel is an upper bound on the number of
successful lookups; `t.length` always suffices. -/
def seqValuesAux (t : Table) : Nat → Int → List Value
  | 0, _ => []
  | fuel + 1, i =>
    let v := tableGet t (Value.integer i)
    if v.isNil then [] else v :: seqValuesAux t fuel (i + 1)

/-- mlua `Table::sequence_values`: the values of the contiguous 1-based
integer-keyed prefix of the table. -/
def sequenceValues (t : Table) : List Value :=
  seqValuesAux t t.length 1

/-- mlua `Table::len` (Lua's # border): modelled as the length of the
contiguous 1-based prefix. -/
def tableLen (t : Table) : Nat :=
  (sequenceValues t).length

/-- Loop of `is_seq` (src/de.rs): expected key counter against the enumerated
pairs. -/
def isSeqAux : List (Value × Value) → Int → Bool
  | [], _ => true
  | (k, _) :: rest, next =>
    if valueEq k (Value.integer next) then isSeqAux rest (next + 1) else false

/-- `is_seq` (src/de.rs lines 314-325): iterate all pairs in enumeration
order with an expected key counter starting at 1; the first pair whose key is
not the Integer equal to the counter makes the table a map, exhausting without
mismatch makes it a sequence. -/
def is_seq (t : Table) : Bool :=
  isSeqAux t 1

mutual

/-- Target shapes of the serde data model, as relevant to this crate:
primitives, Option, Vec, tuple, map, struct (named fields in declaration
order), enum (variants in declaration order). Newtype structs, tuple structs
and unit structs encode transparently and are not modelled separately. -/
inductive Shape where
  | bool
  | int
  | float
  | str
  | unit
  | option (s : Shape)
  | seq (s : Shape)
  | tuple (ss : List Shape)
  | map (key value : Shape)
  | strct (fields : List (String × Shape))
  | enum (variants : List (String × VShape))

inductive VShape where
  | unit
  | newtype (s : Shape)
  | tup (ss : List Shape)
  | strct (fields : List (String × Shape))

end

/-- Typed values of the serde data model (the host-side value being encoded
or the result of decoding). -/
inductive Data where
  | bool (b : Bool)
  | int (n : Int)
  | float (bits : Nat)
  | str (s : String)
  | unit
  | none
  | some (d : Data)
  | seq (ds : List Data)
  | tup (ds : List Data)
  | map (entries : List (Data × Data))
  | strct (fields : List (String × Data))
  | vUnit (name : String)
  | vNew (name : String) (d : Data)
  | vTup (name : String) (ds : List Data)
  | vStruct (name : String) (fields : List (String × Data))

mutual

/-- Encoder: src/ser.rs `to_value` composed with serde's derived Serialize.
Primitives map to the matching Value; None / unit map to Nil; Some is
transparent; sequences and tuples build a 1-based integer-keyed table; maps
and structs build a keyed table (`serialize_entry`: key, value, then set);
enum variants follow the single-entry-table protocol of ser.rs. -/
def to_value : Data → Except Err Value
  | .bool b => .ok (.boolean b)
  | .int n => .ok (.integer n)
  | .float bits => .ok (.number bits)
  | .str s => .ok (.str s)
  | .unit => .ok .nil
  | .none => .ok .nil
  | .some d => to_value d
  | .seq ds => do
    let t ← encodeSeqInto [] 1 ds
    pure (.table t)
  | .tup ds => do
    let t ← encodeSeqInto [] 1 ds
    pure (.table t)
  | .map es => do
    let t ← encodeEntriesInto [] es
    pure (.table t)
  | .strct fs => do
    let t ← encodeFieldsInto [] fs
    pure (.table t)
  | .vUnit n => .ok (.str n)
  | .vNew n d => do
    let v ← to_value d
    pure (.table (tableSetRaw [] (.str n) v))
  | .vTup n ds => do
    let t ← encodeSeqInto [] 1 ds
    pure (.table (tableSetRaw [] (.str n) (.table t)))
  | .vStruct n fs => do
    let t ← encodeFieldsInto [] fs
    pure (.table (tableSetRaw [] (.str n) (.table t)))

/-- Loop of SeqSerializer::serialize_element: encode the element, set it at
the current index, increment the index (also when the value was Nil and the
assignment removed nothing). -/
def encodeSeqInto : Table → Int → List Data → Except Err Table
  | t, _, [] => .ok t
  | t, i, d :: ds => do
    let v ← to_value d
    encodeSeqInto (tableSetRaw t (.integer i) v) (i + 1) ds

/-- Loop of MapSerializer::serialize_entry: encode key, encode value, set
(a Nil key raises the table-index error). -/
def encodeEntriesInto : Table → List (Data × Data) → Except Err Table
  | t, [] => .ok t
  | t, (dk, dv) :: es => do
    let k ← to_value dk
    let v ← to_value dv
    let t2 ← tableSet t k v
    encodeEntriesInto t2 es

/-- Loop of SerializeStruct::serialize_field: field names become string keys. -/
def encodeFieldsInto : Table → List (String × Data) → Except Err Table
  | t, [] => .ok t
  | t, (n, d) :: fs => do
    let v ← to_value d
    encodeFieldsInto (tableSetRaw t (.str n) v) fs

end

/-- Whether a typed value encodes to Nil (None, unit, or Some of such). -/
def encodesNil : Data → Bool
  | .none => true
  | .unit => true
  | .some d => encodesNil d
  | _ => false

/-- mlua's string coercion used by pairs::<String, Value>(): Lua strings
convert as themselves, numbers coerce to their decimal text (the text of an
opaque float pattern is an opaque placeholder), every other kind fails with a
conversion error (stringified into the single error kind). -/
def coerceString : Value → Except Err String
  | .str s => .ok s
  | .integer n => .ok (toString n)
  | .number bits => .ok ("number:" ++ toString bits)
  | _ => .error (.custom "error converting Lua value to String")

/-- deserialize_enum's table analysis (src/de.rs lines 98-117): take the first
pair of pairs::<String, Value>() (its key conversion error propagates), fail
with the single-key error when there is no pair or more than one pair,
otherwise yield the variant name and payload. -/
def enumVariantAndPayload (t : Table) : Except Err (String × Option Value) :=
  match t with
  | [] => .error (.invalidValue "map" "map with a single key")
  | (k, v) :: rest => do
    let name ← coerceString k
    match rest with
    | [] => pure (name, Option.some v)
    | _ :: _ => Except.error (.invalidValue "map" "map with a single key")

/-- Error produced when deserialize_any delivers a value to a visitor method
the visitor does not implement: serde's default visit_* methods raise
invalid_type with the unexpected kind (a Table is classified first), and any
other Value kind is the deserializer's own invalid-value-type error. -/
def visitDefaultErr (expected : String) : Value → Err
  | .nil => .invalidType "unit" expected
  | .boolean _ => .invalidType "boolean" expected
  | .integer _ => .invalidType "integer" expected
  | .number _ => .invalidType "floating point" expected
  | .str _ => .invalidType "string" expected
  | .table t =>
    if is_seq t then .invalidType "sequence" expected else .invalidType "map" expected
  | .other => .custom "invalid value type"

/-- Index of the first occurrence of a string in a list. -/
def idxOf? : List String → String → Option Nat
  | [], _ => Option.none
  | n :: ns, s => if n == s then Option.some 0 else (idxOf? ns s).map (· + 1)

/-- Decode of a struct field identifier: deserialize_identifier is forwarded
to deserialize_any, so only a String key can reach the derived field visitor;
a known name yields its index, an unknown name is ignored (serde's default
without deny_unknown_fields); any non-string key is a type error. -/
def keyFieldIdx (names : List String) (k : Value) : Except Err (Option Nat) :=
  match k with
  | .str s => .ok (idxOf? names s)
  | v => .error (visitDefaultErr "field identifier" v)

mutual

/-- serde's IgnoredAny driven through this deserializer: every data-like value
is consumed (tables recursively through their pairs), and only the
non-data kinds (`other`) produce the invalid-value-type error. For a
sequence-shaped table the real code visits only the prefix values, but its
keys are exactly the integers 1.., which never fail, so visiting all pairs is
equivalent. -/
def ignoredAny : Value → Except Err Unit
  | .table es => ignoredAnyPairs es
  | .other => .error (.custom "invalid value type")
  | _ => .ok ()

def ignoredAnyPairs : List (Value × Value) → Except Err Unit
  | [] => .ok ()
  | (k, v) :: rest => do
    let _ ← ignoredAny k
    let _ ← ignoredAny v
    ignoredAnyPairs rest

end

/-- Result of serde's private missing_field helper: a missing field of Option
shape becomes None, every other shape is a missing-field error. -/
def missingField (n : String) : Shape → Except Err Data
  | .option _ => .ok Data.none
  | _ => .error (.custom ("missing field " ++ n))

/-- Per-field decoding data precomputed for the struct visitor: field name,
value decoder, and the missing-field fallback. -/
abbrev FieldDec := String × (Value → Except Err Data) × Except Err Data

/-- Loop of the derived struct visitor's visit_map over this crate's
MapDeserializer: pull the next key, decode it as a field identifier, then pull
and decode the value with the field's decoder (rejecting duplicates) or ignore
it for unknown names, until the pairs cursor is exhausted. -/
def structMapLoop (decs : List FieldDec) : List (Value × Value) → List (Option Data) →
    Except Err (List (Option Data))
  | [], accs => .ok accs
  | (k, v) :: rest, accs => do
    let idx? ← keyFieldIdx (decs.map (fun x => x.1)) k
    match idx? with
    | Option.none => do
      let _ ← ignoredAny v
      structMapLoop decs rest accs
    | Option.some i =>
      match decs.get? i, accs.get? i with
      | Option.some (n, fdec, _), Option.some acc =>
        match acc with
        | Option.some _ => Except.error (.custom ("duplicate field " ++ n))
        | Option.none => do
          let d ← fdec v
          structMapLoop decs rest (accs.set i (Option.some d))
      | _, _ => Except.error (.custom "bad field index")

/-- Loop of the derived struct visitor's visit_seq: one element per field in
declaration order; a missing element is an invalid-length error, and the
unconsumed tail is returned for the caller's leftover check. -/
def structSeqPull : List FieldDec → List Value → Nat →
    Except Err (List (String × Data) × List Value)
  | [], vs, _ => .ok ([], vs)
  | _ :: _, [], i => .error (.invalidLength i "a struct")
  | (n, fdec, _) :: fs, v :: vs, i => do
    let d ← fdec v
    let (flds, rest) ← structSeqPull fs vs (i + 1)
    pure ((n, d) :: flds, rest)

/-- End of the derived struct visitor's visit_map: each collected field value,
or the missing-field fallback. -/
def finalizeFields : List FieldDec → List (Option Data) → Except Err (List (String × Data))
  | [], _ => .ok []
  | (n, _, missing) :: fs, accs =>
    match accs with
    | [] => do
      let d ← missing
      let rest ← finalizeFields fs []
      pure ((n, d) :: rest)
    | a :: accRest => do
      let d ← (match a with
        | Option.some d => Except.ok d
        | Option.none => missing)
      let rest ← finalizeFields fs accRest
      pure ((n, d) :: rest)

/-- Struct (or struct-variant) decoding through deserialize_any, generic over
the precomputed per-field decoders: a sequence-shaped table feeds the derived
visit_seq (one element per field, in declaration order, with the
deserializer's leftover check), any other table feeds the derived visit_map,
and every non-table value is a visitor type error. -/
def structLike (decs : List FieldDec) : Value → Except Err (List (String × Data))
  | .table t =>
    if is_seq t then do
      let (flds, rest) ← structSeqPull decs (sequenceValues t) 0
      if rest.isEmpty then pure flds
      else Except.error (.invalidLength (tableLen t) "fewer elements in array")
    else do
      let accs ← structMapLoop decs t (decs.map (fun _ => Option.none))
      finalizeFields decs accs
  | v => .error (visitDefaultErr "a struct" v)

mutual

/-- Decoder: src/de.rs `from_value` composed with serde's derived Deserialize
for the given target shape. Primitives and maps/structs go through
deserialize_any (they are in the forward_to_deserialize_any list); Vec, tuples
and tuple variants go through deserialize_seq directly; Option through
deserialize_option; enums through deserialize_enum. -/
def from_value : Shape → Value → Except Err Data
  | .bool => fun v =>
    match v with
    | .boolean b => .ok (.bool b)
    | v => .error (visitDefaultErr "a boolean" v)
  | .int => fun v =>
    match v with
    | .integer n => .ok (.int n)
    | v => .error (visitDefaultErr "i64" v)
  | .float => fun v =>
    match v with
    | .number bits => .ok (.float bits)
    | .integer n => .ok (.float (2 ^ 64 + n.toNat))
    | v => .error (visitDefaultErr "f64" v)
  | .str => fun v =>
    match v with
    | .str s => .ok (.str s)
    | v => .error (visitDefaultErr "a string" v)
  | .unit => fun v =>
    match v with
    | .nil => .ok .unit
    | v => .error (visitDefaultErr "unit" v)
  | .option s => fun v =>
    match v with
    | .nil => .ok Data.none
    | v => do
      let d ← from_value s v
      pure (Data.some d)
  | .seq s => fun v =>
    match v with
    | .table t => do
      let ds ← (sequenceValues t).mapM (from_value s)
      pure (Data.seq ds)
    | _ => .error (.custom "invalid value type")
  | .tuple ss => fun v =>
    match v with
    | .table t => do
      let (ds, rest) ← decodeTupElems ss (sequenceValues t) 0
      if rest.isEmpty then pure (Data.tup ds)
      else Except.error (.invalidLength (tableLen t) "fewer elements in array")
    | _ => .error (.custom "invalid value type")
  | .map ks vs => fun v =>
    match v with
    | .table t =>
      if is_seq t then .error (.invalidType "sequence" "a map")
      else do
        let es ← t.mapM (fun p => do
          let dk ← from_value ks p.1
          let dv ← from_value vs p.2
          pure (dk, dv))
        pure (Data.map es)
    | v => .error (visitDefaultErr "a map" v)
  | .strct fs => fun v => do
    let flds ← structLike (fieldDecoders fs) v
    pure (Data.strct flds)
  | .enum vs => fun v =>
    match v with
    | .table t => do
      let (name, payload) ← enumVariantAndPayload t
      decodeVariant vs name payload
    | .str s => decodeVariant vs s Option.none
    | _ => .error (.custom "bad enum value")

/-- Loop of the derived tuple visitor's visit_seq: pull one element per field
shape; a missing element is an invalid-length error at the current index, and
the unconsumed tail is returned for the caller's leftover check. -/
def decodeTupElems : List Shape → List Value → Nat → Except Err (List Data × List Value)
  | [], vs, _ => .ok ([], vs)
  | _ :: _, [], i => .error (.invalidLength i "a tuple")
  | s :: ss, v :: vs, i => do
    let d ← from_value s v
    let (ds, rest) ← decodeTupElems ss vs (i + 1)
    pure (d :: ds, rest)

/-- Derived enum visitor: find the first variant with the requested name
(unknown names are an error), then apply the variant-kind access of
src/de.rs (VariantAccess for VariantDeserializer): a unit variant must have
no payload, the others must have one; a tuple-variant payload goes through
deserialize_seq, a struct-variant payload through deserialize_map, which is
forwarded to deserialize_any. -/
def decodeVariant : List (String × VShape) → String → Option Value → Except Err Data
  | [], name, _ => .error (.custom ("unknown variant " ++ name))
  | (n, vk) :: rest, name, payload =>
    if n == name then
      match vk, payload with
      | .unit, Option.some _ => .error (.invalidType "newtype variant" "unit variant")
      | .unit, Option.none => .ok (.vUnit name)
      | .newtype s, Option.some pv => do
        let d ← from_value s pv
        pure (.vNew name d)
      | .newtype _, Option.none => .error (.invalidType "unit variant" "newtype variant")
      | .tup ss, Option.some pv =>
        (match pv with
        | .table t => do
          let (ds, rest2) ← decodeTupElems ss (sequenceValues t) 0
          if rest2.isEmpty then pure (Data.vTup name ds)
          else Except.error (.invalidLength (tableLen t) "fewer elements in array")
        | _ => Except.error (.custom "invalid value type"))
      | .tup _, Option.none => .error (.invalidType "unit variant" "tuple variant")
      | .strct fs, Option.some pv => do
        let flds ← structLike (fieldDecoders fs) pv
        pure (.vStruct name flds)
      | .strct _, Option.none => .error (.invalidType "unit variant" "struct variant")
    else decodeVariant rest name payload

/-- Per-field decoders for the struct visitor. -/
def fieldDecoders : List (String × Shape) → List FieldDec
  | [] => []
  | (n, s) :: fs => (n, from_value s, missingField n s) :: fieldDecoders fs

end

/-- The visitor methods exercised by deserialize_any. The seq/map visits take
the cursor's element (or pair) list and return the result together with the
part of the cursor they did not consume. -/
structure AnyVisitor (α : Type) where
  visitUnit : Except Err α
  visitBool : Bool → Except Err α
  visitI64 : Int → Except Err α
  visitF64 : Nat → Except Err α
  visitStr : String → Except Err α
  visitSeq : List Value → Except Err (α × List Value)
  visitMap : List (Value × Value) → Except Err (α × List (Value × Value))

/-- deserialize_any (src/de.rs lines 33-75): Nil, Boolean, Integer, Number and
String are delivered to the matching visitor method; a Table is classified by
is_seq and dispatched to visit_seq over the sequence-values cursor or
visit_map over the pairs cursor, in both cases failing with the
fewer-elements invalid-length error when the visitor left part of the cursor
unconsumed; every other value kind is the invalid-value-type error. -/
def deserialize_any (v : Value) (vis : AnyVisitor α) : Except Err α :=
  match v with
  | .nil => vis.visitUnit
  | .boolean b => vis.visitBool b
  | .integer n => vis.visitI64 n
  | .number bits => vis.visitF64 bits
  | .str s => vis.visitStr s
  | .table t =>
    if is_seq t then do
      let (a, rest) ← vis.visitSeq (sequenceValues t)
      if rest.isEmpty then pure a
      else Except.error (.invalidLength (tableLen t) "fewer elements in array")
    else do
      let (a, rest) ← vis.visitMap t
      if rest.isEmpty then pure a
      else Except.error (.invalidLength (tableLen t) "fewer elements in array")
  | .other => .error (.custom "invalid value type")

/-- deserialize_seq (src/de.rs lines 125-146): only a Table is accepted; the
visitor runs over the sequence-values cursor, and leftover unconsumed
elements are the fewer-elements invalid-length error. -/
def deserialize_seq (v : Value) (visit : List Value → Except Err (α × List Value)) :
    Except Err α :=
  match v with
  | .table t => do
    let (a, rest) ← visit (sequenceValues t)
    if rest.isEmpty then pure a
    else Except.error (.invalidLength (tableLen t) "fewer elements in array")
  | _ => .error (.custom "invalid value type")

/-- The derived struct visitor as an AnyVisitor: visit_seq pulls one element
per field, visit_map runs the field-matching loop and consumes every pair,
and all scalar visits are the default invalid-type errors. -/
def structAnyVisitor (decs : List FieldDec) : AnyVisitor (List (String × Data)) where
  visitUnit := .error (.invalidType "unit" "a struct")
  visitBool := fun _ => .error (.invalidType "boolean" "a struct")
  visitI64 := fun _ => .error (.invalidType "integer" "a struct")
  visitF64 := fun _ => .error (.invalidType "floating point" "a struct")
  visitStr := fun _ => .error (.invalidType "string" "a struct")
  visitSeq := fun vals => structSeqPull decs vals 0
  visitMap := fun ps => do
    let accs ← structMapLoop decs ps (decs.map (fun _ => Option.none))
    let flds ← finalizeFields decs accs
    pure (flds, [])

/-- VariantAccess::unit_variant (src/de.rs lines 264-271): a present payload
is an invalid-type error. -/
def unit_variant (payload : Option Value) : Except Err Unit :=
  match payload with
  | Option.some _ => .error (.invalidType "newtype variant" "unit variant")
  | Option.none => .ok ()

/-- VariantAccess::newtype_variant_seed (src/de.rs lines 274-285): the payload
is decoded by the seed; a missing payload is an invalid-type error. -/
def newtype_variant (payload : Option Value) (seed : Value → Except Err α) : Except Err α :=
  match payload with
  | Option.some v => seed v
  | Option.none => .error (.invalidType "unit variant" "newtype variant")

/-- VariantAccess::tuple_variant (src/de.rs lines 287-298): the payload goes
through deserialize_seq; a missing payload is an invalid-type error. -/
def tuple_variant (payload : Option Value)
    (visit : List Value → Except Err (α × List Value)) : Except Err α :=
  match payload with
  | Option.some v => deserialize_seq v visit
  | Option.none => .error (.invalidType "unit variant" "tuple variant")

/-- VariantAccess::struct_variant (src/de.rs lines 300-311): the payload goes
through deserialize_map, which is forwarded to deserialize_any; a missing
payload is an invalid-type error. -/
def struct_variant (payload : Option Value) (vis : AnyVisitor α) : Except Err α :=
  match payload with
  | Option.some v => deserialize_any v vis
  | Option.none => .error (.invalidType "unit variant" "struct variant")

/-- State of MapDeserializer (src/de.rs lines 197-200): the remaining pairs of
the cursor and the pending value stored by the last key pull. -/
structure MapDeState where
  pairs : List (Value × Value)
  pending : Option Value

/-- MapAccess::next_key_seed (src/de.rs lines 205-218): take the next pair,
store its value as pending, and decode its key with the seed. -/
def nextKeySeed (st : MapDeState) (seed : Value → Except Err α) :
    Except Err (Option α × MapDeState) :=
  match st.pairs with
  | [] => .ok (Option.none, st)
  | (k, v) :: rest => do
    let a ← seed k
    pure (Option.some a, ⟨rest, Option.some v⟩)

/-- MapAccess::next_value_seed (src/de.rs lines 220-228): decode the pending
value taken out of the state; with no pending value (no preceding key pull for
this pair) it is the value-is-missing decode error. -/
def nextValueSeed (st : MapDeState) (seed : Value → Except Err α) :
    Except Err (α × MapDeState) :=
  match st.pending with
  | Option.some v => do
    let a ← seed v
    pure (a, ⟨st.pairs, Option.none⟩)
  | Option.none => .error (.custom "value is missing")

/-- Outcome of an encode-side call that may also panic (Rust `expect`):
panicking is distinct from returning the error type. -/
inductive SerOutcome (α : Type) where
  | ok (a : α)
  | err (e : Err)
  | panicked (msg : String)
deriving DecidableEq

/-- State of MapSerializer (src/ser.rs lines 31-35): the table under
construction and the key stored by the last serialize_key call. The
serialization of the key/value argument itself is modelled as already done
(its result is the Value parameter). -/
structure MapSerState where
  table : Table
  key : Option Value

/-- SerializeMap::serialize_key (src/ser.rs lines 313-320): store the
serialized key. -/
def serialize_key (st : MapSerState) (k : Value) : SerOutcome MapSerState :=
  .ok { st with key := Option.some k }

/-- SerializeMap::serialize_value (src/ser.rs lines 322-333): take the stored
key — panicking via expect when there is none — and set the entry. -/
def serialize_value (st : MapSerState) (v : Value) : SerOutcome MapSerState :=
  match st.key with
  | Option.some k =>
    (match tableSet st.table k v with
    | .ok t => .ok { table := t, key := Option.none }
    | .error e => .err e)
  | Option.none => .panicked "serialize_key must be called before serialize_value"

/-- Name of an enum-variant typed value. -/
def dName : Data → Option String
  | .vUnit n => Option.some n
  | .vNew n _ => Option.some n
  | .vTup n _ => Option.some n
  | .vStruct n _ => Option.some n
  | _ => Option.none

mutual

/-- The typed value fits the target shape (what Rust's type system guarantees
about a value of the target type before encoding). -/
def hasShape : Shape → Data → Bool
  | .bool => fun d => match d with | .bool _ => true | _ => false
  | .int => fun d => match d with | .int _ => true | _ => false
  | .float => fun d => match d with | .float _ => true | _ => false
  | .str => fun d => match d with | .str _ => true | _ => false
  | .unit => fun d => match d with | .unit => true | _ => false
  | .option s => fun d =>
    match d with
    | .none => true
    | .some d2 => hasShape s d2
    | _ => false
  | .seq s => fun d => match d with | .seq ds => ds.all (hasShape s) | _ => false
  | .tuple ss => fun d => match d with | .tup ds => hasShapeList ss ds | _ => false
  | .map ks vs => fun d =>
    match d with
    | .map es => es.all (fun p => hasShape ks p.1 && hasShape vs p.2)
    | _ => false
  | .strct fs => fun d => match d with | .strct gs => hasShapeFields fs gs | _ => false
  | .enum vs => fun d => hasVariant vs d

def hasShapeList : List Shape → List Data → Bool
  | [], [] => true
  | s :: ss, d :: ds => hasShape s d && hasShapeList ss ds
  | _, _ => false

def hasShapeFields : List (String × Shape) → List (String × Data) → Bool
  | [], [] => true
  | (n, s) :: fs, (m, d) :: gs => n == m && hasShape s d && hasShapeFields fs gs
  | _, _ => false

/-- The data is a variant value whose name's first occurrence in the variant
list carries its kind and payload shape (mirroring that decoding picks the
first name match). -/
def hasVariant : List (String × VShape) → Data → Bool
  | [], _ => false
  | (n, vk) :: rest, d =>
    match dName d with
    | Option.some m => if n == m then variantMatches vk d else hasVariant rest d
    | Option.none => false

def variantMatches : VShape → Data → Bool
  | .unit, d => match d with | .vUnit _ => true | _ => false
  | .newtype s, d => match d with | .vNew _ d2 => hasShape s d2 | _ => false
  | .tup ss, d => match d with | .vTup _ ds => hasShapeList ss ds | _ => false
  | .strct fs, d => match d with | .vStruct _ gs => hasShapeFields fs gs | _ => false

end

/-- No string occurs twice. -/
def distinctNames : List String → Bool
  | [] => true
  | n :: ns => !(ns.contains n) && distinctNames ns

mutual

/-- Shape well-formedness guaranteed by Rust declarations: struct field names
and enum variant names are pairwise distinct. -/
def shapeWF : Shape → Bool
  | .bool => true
  | .int => true
  | .float => true
  | .str => true
  | .unit => true
  | .option s => shapeWF s
  | .seq s => shapeWF s
  | .tuple ss => shapeWFList ss
  | .map ks vs => shapeWF ks && shapeWF vs
  | .strct fs => distinctNames (fs.map (fun x => x.1)) && shapeWFFields fs
  | .enum vs => distinctNames (vs.map (fun x => x.1)) && shapeWFVariants vs

def shapeWFList : List Shape → Bool
  | [] => true
  | s :: ss => shapeWF s && shapeWFList ss

def shapeWFFields : List (String × Shape) → Bool
  | [] => true
  | (_, s) :: fs => shapeWF s && shapeWFFields fs

def shapeWFVariants : List (String × VShape) → Bool
  | [] => true
  | (_, vk) :: vs => shapeWFVariant vk && shapeWFVariants vs

def shapeWFVariant : VShape → Bool
  | .unit => true
  | .newtype s => shapeWF s
  | .tup ss => shapeWFList ss
  | .strct fs => distinctNames (fs.map (fun x => x.1)) && shapeWFFields fs

end

mutual

/-- The shape contains no directly nested Option (the documented
Option-within-Option limitation of the spec). -/
def noNestedOption : Shape → Bool
  | .option (.option _) => false
  | .option s => noNestedOption s
  | .seq s => noNestedOption s
  | .tuple ss => noNestedOptionList ss
  | .map ks vs => noNestedOption ks && noNestedOption vs
  | .strct fs => noNestedOptionFields fs
  | .enum vs => noNestedOptionVariants vs
  | _ => true

def noNestedOptionList : List Shape → Bool
  | [] => true
  | s :: ss => noNestedOption s && noNestedOptionList ss

def noNestedOptionFields : List (String × Shape) → Bool
  | [] => true
  | (_, s) :: fs => noNestedOption s && noNestedOptionFields fs

def noNestedOptionVariants : List (String × VShape) → Bool
  | [] => true
  | (_, vk) :: vs => noNestedOptionVariant vk && noNestedOptionVariants vs

def noNestedOptionVariant : VShape → Bool
  | .unit => true
  | .newtype s => noNestedOption s
  | .tup ss => noNestedOptionList ss
  | .strct fs => noNestedOptionFields fs

end

/-- Encoded value of a typed value, with a dummy for the (map-key-error)
failure case; used only to state key-distinctness below. -/
def encValOr (d : Data) : Value :=
  match to_value d with
  | .ok v => v
  | .error _ => .other

/-- The encoded map keys are pairwise unequal (in encoding order), so each
entry lands as a fresh table entry. -/
def keysDistinct : List (Data × Data) → Bool
  | [] => true
  | (k, _) :: es =>
    es.all (fun p => !valueEq (encValOr k) (encValOr p.1)) && keysDistinct es

/-- The encoded table of a map value is not sequence-shaped (otherwise the
decoder would dispatch it to visit_seq). -/
def mapSeqShaped (es : List (Data × Data)) : Bool :=
  match to_value (Data.map es) with
  | .ok (.table t) => is_seq t
  | _ => false

mutual

/-- Round-trip side conditions on the value itself: no value encoding to Nil
may sit in a table-entry position (sequence/tuple element, map key or value,
struct field, variant payload) or under Some, every map's encoded table must
not be sequence-shaped, and encoded map keys must be pairwise distinct. -/
def goodData : Data → Bool
  | .bool _ => true
  | .int _ => true
  | .float _ => true
  | .str _ => true
  | .unit => true
  | .none => true
  | .some d => goodData d && !encodesNil d
  | .seq ds => goodList ds
  | .tup ds => goodList ds
  | .map es => goodEntries es && keysDistinct es && !mapSeqShaped es
  | .strct fs => goodFields fs
  | .vUnit _ => true
  | .vNew _ d => goodData d && !encodesNil d
  | .vTup _ ds => goodList ds
  | .vStruct _ fs => goodFields fs

def goodList : List Data → Bool
  | [] => true
  | d :: ds => goodData d && !encodesNil d && goodList ds

def goodEntries : List (Data × Data) → Bool
  | [] => true
  | (k, v) :: es =>
    goodData k && !encodesNil k && goodData v && !encodesNil v && goodEntries es

def goodFields : List (String × Data) → Bool
  | [] => true
  | (_, d) :: fs => goodData d && !encodesNil d && goodFields fs

end

/-- Table holding the given values at integer keys i, i+1, ... (the result of
the sequence serializer loop); proof-level description of encoded tables. -/
def enumFromInt (i : Int) : List Value → Table
  | [] => []
  | v :: vs => (Value.integer i, v) :: enumFromInt (i + 1) vs

/-- Table pairing string keys with values in order (the result of the struct
serializer loop); proof-level description of encoded tables. -/
def strTable : List String → List Value → Table
  | n :: ns, v :: vs => (Value.str n, v) :: strTable ns vs
  | _, _ => []

/-- Table pairing the given keys with the given values in order (the result
of the map serializer loop); proof-level description of encoded tables. -/
def zipTable : List Value → List Value → Table
  | k :: ks, v :: vs => (k, v) :: zipTable ks vs
  | _, _ => []

/-- Pointwise relation between three lists of equal length. -/
inductive Forall3 (R : α → β → γ → Prop) : List α → List β → List γ → Prop
  | nil : Forall3 R [] [] []
  | cons {a b c l1 l2 l3} : R a b c → Forall3 R l1 l2 l3 →
      Forall3 R (a :: l1) (b :: l2) (c :: l3)

/-- Abbreviation for the round-trip property of a single typed value. -/
def RTProp (d : Data) : Prop :=
  ∀ S : Shape, shapeWF S = true → hasShape S d = true → goodData d = true →
    ∃ v : Value, to_value d = .ok v ∧ from_value S v = .ok d ∧
      (v = Value.nil ↔ encodesNil d = true)

/-! Basic reduction lemmas for the Except monad as used above. -/

@[simp] theorem okBind (a : α) (f : α → Except Err β) : (Except.ok a >>= f) = f a := rfl

@[simp] theorem errBind (e : Err) (f : α → Except Err β) :
    (Except.error e >>= f) = Except.error e := rfl

@[simp] theorem purePE (a : α) : (pure a : Except Err α) = Except.ok a := rfl

theorem isEmptyFalse {α : Type} {l : List α} (h : l ≠ []) : l.isEmpty = false := by
  cases l with
  | nil => exact absurd rfl h
  | cons a l2 => rfl

/-- Extensional characterization of the is_seq loop: starting the expected
counter at i, the table passes iff the key of the pair at each position j is
the Integer i + j. -/
theorem isSeqAux_spec (t : List (Value × Value)) :
    ∀ i : Int, isSeqAux t i =
      (List.range t.length).all
        (fun j => valueEq (t.getD j (Value.nil, Value.nil)).1 (Value.integer (i + j))) := by
  induction t with
  | nil => intro i; rfl
  | cons p rest ih =>
    intro i
    rcases p with ⟨k, v⟩
    show (if valueEq k (Value.integer i) then isSeqAux rest (i + 1) else false) = _
    rw [List.length_cons, List.range_succ_eq_map, List.all_cons, List.all_map]
    have hf : ((fun j : Nat =>
          valueEq ((((k, v) :: rest).getD j (Value.nil, Value.nil)).1) (Value.integer (i + j)))
          ∘ Nat.succ) =
        (fun j : Nat =>
          valueEq ((rest.getD j (Value.nil, Value.nil)).1) (Value.integer ((i + 1) + j))) := by
      funext j
      simp only [Function.comp, List.getD_cons_succ]
      congr 2
      push_cast
      ring
    rw [hf]
    simp only [List.getD_cons_zero, Nat.cast_zero, add_zero]
    cases h : valueEq k (Value.integer i) with
    | false => simp [h]
    | true => simp [h, ih (i + 1)]

/-- C2. Sequence/map classification: a table is a sequence exactly when the
pair at each position j of its enumeration order has key Integer (1 + j)
(the expected-counter loop starting at 1), so keys {1,2,3} and the empty
table classify as Sequence while {1,2,4}, {0,1,2} and {"a"} classify as
Map. -/
theorem c2_is_seq_classification :
    (∀ t : Table, is_seq t =
      (List.range t.length).all
        (fun j => valueEq ((t.getD j (Value.nil, Value.nil)).1) (Value.integer (1 + j)))) ∧
    is_seq [(.integer 1, .boolean true), (.integer 2, .boolean true),
      (.integer 3, .boolean true)] = true ∧
    is_seq [(.integer 1, .boolean true), (.integer 2, .boolean true),
      (.integer 4, .boolean true)] = false ∧
    is_seq [(.integer 0, .boolean true), (.integer 1, .boolean true),
      (.integer 2, .boolean true)] = false ∧
    is_seq [(.str "a", .integer 1)] = false ∧
    is_seq ([] : Table) = true :=
  ⟨fun t => isSeqAux_spec t 1, rfl, rfl, rfl, rfl, rfl⟩

/-- C3. Option collapse: Some(None) and None (and unit, unit structs) all
encode to Nil, Some is encoded with no wrapper, and decoding Nil at an
Option-of-Option target always produces the outer None, never Some(None). -/
theorem c3_option_collapse :
    to_value (Data.some Data.none) = .ok Value.nil ∧
    to_value Data.none = .ok Value.nil ∧
    to_value Data.unit = .ok Value.nil ∧
    (∀ d : Data, to_value (Data.some d) = to_value d) ∧
    (∀ s : Shape, from_value (.option (.option s)) Value.nil = .ok Data.none) ∧
    (∀ s : Shape, from_value (.option (.option s)) Value.nil ≠ .ok (Data.some Data.none)) := by
  refine ⟨rfl, rfl, rfl, fun d => rfl, fun s => rfl, fun s h => ?_⟩
  have h2 : Data.none = Data.some Data.none := by
    have := Except.ok.inj h
    exact this
  exact Data.noConfusion h2

/-- C4. Self-describing decode dispatch of deserialize_any: Nil goes to the
visitor as unit, Boolean as bool, Integer as i64, Number as f64, String as a
string; a Table is classified by is_seq and dispatched to the sequence or map
pipeline (with the leftover check); every other value kind produces the
invalid-value-type decode error. -/
theorem c4_deserialize_any_dispatch {α : Type} (vis : AnyVisitor α) :
    deserialize_any Value.nil vis = vis.visitUnit ∧
    (∀ b, deserialize_any (Value.boolean b) vis = vis.visitBool b) ∧
    (∀ n, deserialize_any (Value.integer n) vis = vis.visitI64 n) ∧
    (∀ bits, deserialize_any (Value.number bits) vis = vis.visitF64 bits) ∧
    (∀ s, deserialize_any (Value.str s) vis = vis.visitStr s) ∧
    (∀ t, deserialize_any (Value.table t) vis =
      if is_seq t then
        (do
          let (a, rest) ← vis.visitSeq (sequenceValues t)
          if rest.isEmpty then pure a
          else Except.error (.invalidLength (tableLen t) "fewer elements in array"))
      else
        (do
          let (a, rest) ← vis.visitMap t
          if rest.isEmpty then pure a
          else Except.error (.invalidLength (tableLen t) "fewer elements in array"))) ∧
    deserialize_any Value.other vis = .error (.custom "invalid value type") :=
  ⟨rfl, fun _ => rfl, fun _ => rfl, fun _ => rfl, fun _ => rfl, fun _ => rfl, rfl⟩

/-- C8. Map-access protocol on decode: pulling a value with no pending value
stored is the value-is-missing decode error (an Except error, not a panic,
since the whole decoder is Except-valued); pulling a key stores the pair's
value as pending, after which the value pull consumes it, so the error branch
is unreachable under the key-then-value protocol. -/
theorem c8_next_value_protocol {α : Type} :
    (∀ (ps : List (Value × Value)) (seed : Value → Except Err α),
      nextValueSeed ⟨ps, Option.none⟩ seed = .error (.custom "value is missing")) ∧
    (∀ (k v : Value) (rest : List (Value × Value)) (p0 : Option Value)
        (seed : Value → Except Err α),
      nextKeySeed ⟨(k, v) :: rest, p0⟩ seed =
        (do
          let a ← seed k
          pure (Option.some a, (⟨rest, Option.some v⟩ : MapDeState)))) ∧
    (∀ (v : Value) (ps : List (Value × Value)) (seed : Value → Except Err α),
      nextValueSeed ⟨ps, Option.some v⟩ seed =
        (do
          let a ← seed v
          pure (a, (⟨ps, Option.none⟩ : MapDeState)))) :=
  ⟨fun _ _ => rfl, fun _ _ _ _ _ => rfl, fun _ _ _ => rfl⟩

/-- C10. Encode-side map protocol violation: serialize_value with no stored
key panics through expect with the given message (it does not return the
error type), while after a serialize_key call the stored key is present and
serialize_value never panics. -/
theorem c10_serialize_value_panics :
    (∀ (t : Table) (v : Value),
      serialize_value ⟨t, Option.none⟩ v =
        .panicked "serialize_key must be called before serialize_value") ∧
    (∀ (t : Table) (v : Value) (e : Err), serialize_value ⟨t, Option.none⟩ v ≠ .err e) ∧
    (∀ (st : MapSerState) (k : Value),
      serialize_key st k = .ok { st with key := Option.some k }) ∧
    (∀ (t : Table) (k v : Value) (m : String),
      serialize_value ⟨t, Option.some k⟩ v ≠ .panicked m) := by
  refine ⟨fun _ _ => rfl, fun t v e h => SerOutcome.noConfusion h, fun _ _ => rfl,
    fun t k v m h => ?_⟩
  have h2 : (match tableSet t k v with
      | .ok t2 => SerOutcome.ok (⟨t2, Option.none⟩ : MapSerState)
      | .error e => SerOutcome.err e) = SerOutcome.panicked m := h
  revert h2
  cases tableSet t k v <;> intro h2 <;> exact SerOutcome.noConfusion h2

/-- C9. Typed sequence decode does no classification: decoding a table at a
Vec target depends only on the sequence-values cursor (the contiguous 1-based
prefix), so a table with only non-integer keys decodes to the empty sequence,
and no leftover error can arise because the Vec visitor consumes the whole
cursor. -/
theorem c9_seq_decode_prefix_only :
    (∀ s : Shape, from_value (.seq s) (.table [(.str "a", .integer 1)]) = .ok (Data.seq [])) ∧
    (∀ (s : Shape) (t : Table),
      from_value (.seq s) (.table t) =
        (sequenceValues t).mapM (from_value s) >>= fun ds => pure (Data.seq ds)) ∧
    (∀ (s : Shape) (t1 t2 : Table), sequenceValues t1 = sequenceValues t2 →
      from_value (.seq s) (.table t1) = from_value (.seq s) (.table t2)) := by
  refine ⟨fun s => rfl, fun s t => rfl, fun s t1 t2 h => ?_⟩
  show (sequenceValues t1).mapM (from_value s) >>= _ =
    (sequenceValues t2).mapM (from_value s) >>= _
  rw [h]

/-- C9 witness: the invariance clause applied to two tables with the same
(empty) sequence prefix. -/
theorem c9_seq_decode_prefix_only_witness :
    sequenceValues [(Value.str "a", Value.integer 1)] =
      sequenceValues [(Value.str "b", Value.integer 2)] ∧
    from_value (.seq .int) (.table [(.str "a", .integer 1)]) =
      from_value (.seq .int) (.table [(.str "b", .integer 2)]) :=
  ⟨rfl, c9_seq_decode_prefix_only.2.2 .int _ _ rfl⟩

/-- C5 as stated is too strong: when the first enumerated key of a
two-entry table cannot be coerced to a string, the pair conversion error of
pairs::<String, Value>() propagates before the single-entry check, so the
failure is the key-conversion error, not the single-key error. -/
theorem c5_counterexample :
    from_value (.enum [("A", VShape.unit)])
      (.table [(.boolean true, .nil), (.str "x", .nil)]) =
      .error (.custom "error converting Lua value to String") ∧
    Err.custom "error converting Lua value to String" ≠
      Err.invalidValue "map" "map with a single key" :=
  ⟨rfl, by decide⟩

/-- C5 (amended). Enum single-entry requirement: a table with zero entries
always fails with the single-key error; a table with two or more entries
fails with it provided its first key is string-coercible (otherwise the key
conversion error fires first); with exactly one pair the coerced key becomes
the variant name and the value the payload; a foreign String is the variant
name with no payload. -/
theorem c5_enum_single_entry :
    enumVariantAndPayload [] = .error (.invalidValue "map" "map with a single key") ∧
    (∀ (k v : Value) (p : Value × Value) (rest : List (Value × Value)) (s : String),
      coerceString k = .ok s →
      enumVariantAndPayload ((k, v) :: p :: rest) =
        .error (.invalidValue "map" "map with a single key")) ∧
    (∀ (k v : Value) (s : String), coerceString k = .ok s →
      enumVariantAndPayload [(k, v)] = .ok (s, Option.some v)) ∧
    (∀ (vs : List (String × VShape)) (s : String),
      from_value (.enum vs) (.str s) = decodeVariant vs s Option.none) ∧
    (∀ (vs : List (String × VShape)) (t : Table),
      from_value (.enum vs) (.table t) =
        enumVariantAndPayload t >>= fun p => decodeVariant vs p.1 p.2) := by
  refine ⟨rfl, fun k v p rest s h => ?_, fun k v s h => ?_, fun vs s => rfl, fun vs t => ?_⟩
  · show (coerceString k >>= _) = _
    rw [h]
    rfl
  · show (coerceString k >>= _) = _
    rw [h]
    rfl
  · show (enumVariantAndPayload t >>= _) = _
    cases h : enumVariantAndPayload t with
    | ok p => cases p; rfl
    | error e => rfl

/-- C5 witness: the amended clauses applied at concrete tables whose first
key is a string. -/
theorem c5_enum_single_entry_witness :
    coerceString (Value.str "A") = .ok "A" ∧
    enumVariantAndPayload [(.str "A", .nil), (.str "B", .nil)] =
      .error (.invalidValue "map" "map with a single key") ∧
    enumVariantAndPayload [(.str "A", .integer 3)] = .ok ("A", Option.some (.integer 3)) :=
  ⟨rfl, c5_enum_single_entry.2.1 _ _ _ [] "A" rfl, c5_enum_single_entry.2.2.1 _ _ "A" rfl⟩

/-- C6. Leftover-elements rejection: decoding a 3-element sequence table into
a 2-tuple fails with the fewer-elements invalid-length error; in general any
unconsumed cursor tail after the visitor returns makes deserialize_seq fail
with that error, the identical policy applies to unconsumed pairs in the map
branch of deserialize_any, and tuple decoding is exactly deserialize_seq with
the derived tuple visitor. -/
theorem c6_leftover_rejection :
    from_value (.tuple [.int, .int])
      (.table [(.integer 1, .integer 10), (.integer 2, .integer 20),
        (.integer 3, .integer 30)]) =
      .error (.invalidLength 3 "fewer elements in array") ∧
    (∀ (α : Type) (t : Table) (visit : List Value → Except Err (α × List Value))
        (a : α) (rest : List Value),
      visit (sequenceValues t) = .ok (a, rest) → rest ≠ [] →
      deserialize_seq (Value.table t) visit =
        .error (.invalidLength (tableLen t) "fewer elements in array")) ∧
    (∀ (α : Type) (t : Table) (vis : AnyVisitor α) (a : α)
        (rest : List (Value × Value)),
      is_seq t = false → vis.visitMap t = .ok (a, rest) → rest ≠ [] →
      deserialize_any (Value.table t) vis =
        .error (.invalidLength (tableLen t) "fewer elements in array")) ∧
    (∀ (ss : List Shape) (v : Value),
      from_value (.tuple ss) v = deserialize_seq v
        (fun vals => decodeTupElems ss vals 0 >>= fun pr => pure (Data.tup pr.1, pr.2))) := by
  refine ⟨rfl, fun α t visit a rest hv hne => ?_, fun α t vis a rest hs hv hne => ?_,
    fun ss v => ?_⟩
  · show (visit (sequenceValues t) >>= _) = _
    rw [hv]
    simp [isEmptyFalse hne]
  · show (if is_seq t then _ else _) = _
    rw [hs]
    show (vis.visitMap t >>= _) = _
    rw [hv]
    simp [isEmptyFalse hne]
  · cases v with
    | table t =>
      show (do
          let (ds, rest) ← decodeTupElems ss (sequenceValues t) 0
          if rest.isEmpty then pure (Data.tup ds)
          else Except.error (.invalidLength (tableLen t) "fewer elements in array")) =
        (do
          let (a, rest) ← (do
            let pr ← decodeTupElems ss (sequenceValues t) 0
            pure (Data.tup pr.1, pr.2))
          if rest.isEmpty then pure a
          else Except.error (.invalidLength (tableLen t) "fewer elements in array"))
      cases h : decodeTupElems ss (sequenceValues t) 0 with
      | ok pr => cases pr; rfl
      | error e => rfl
    | nil => rfl
    | boolean b => rfl
    | integer n => rfl
    | number bits => rfl
    | str s => rfl
    | other => rfl

/-- C6 witness: the seq clause at a 1-element table with a visitor consuming
nothing, and the map clause at a string-keyed table with a visitor consuming
nothing. -/
theorem c6_leftover_rejection_witness :
    deserialize_seq (Value.table [(.integer 1, .boolean true)])
      (fun vals => .ok ((), vals)) =
      .error (.invalidLength 1 "fewer elements in array") ∧
    deserialize_any (Value.table [(.str "a", .integer 1)])
      (⟨.error (.custom "x"), fun _ => .error (.custom "x"), fun _ => .error (.custom "x"),
        fun _ => .error (.custom "x"), fun _ => .error (.custom "x"),
        fun vals => .ok ((), vals), fun ps => .ok ((), ps)⟩ : AnyVisitor Unit) =
      .error (.invalidLength 0 "fewer elements in array") :=
  ⟨c6_leftover_rejection.2.1 Unit _ _ () [.boolean true] rfl (List.cons_ne_nil _ _),
    c6_leftover_rejection.2.2.1 Unit _ _ () [(.str "a", .integer 1)] rfl rfl
      (List.cons_ne_nil _ _)⟩

/-- deserialize_map forwarded to deserialize_any with the derived struct
visitor is exactly the struct decoding pipeline. -/
theorem deserialize_any_structAnyVisitor (decs : List FieldDec) (v : Value) :
    deserialize_any v (structAnyVisitor decs) = structLike decs v := by
  cases v with
  | table t =>
    simp only [deserialize_any, structLike, structAnyVisitor]
    cases hs : is_seq t
    · simp only [Bool.false_eq_true, if_false]
      cases hl : structMapLoop decs t (decs.map (fun _ => Option.none)) with
      | ok accs =>
        simp only [okBind]
        cases hf : finalizeFields decs accs with
        | ok flds => simp
        | error e => simp
      | error e => simp
    · simp only [if_true]
  | nil => rfl
  | boolean b => rfl
  | integer n => rfl
  | number bits => rfl
  | str s => rfl
  | other => rfl

/-- C7. Variant-kind/payload mismatches are errors: a unit-variant request
with a payload, and a newtype-, tuple- or struct-variant request without one,
each produce an invalid-type error; a tuple-variant payload goes through
deserialize_seq (so a non-table payload is the invalid-value-type error) and
a struct-variant payload through deserialize_map, i.e. deserialize_any; and
the composed enum decoder agrees with these variant accessors. -/
theorem c7_variant_mismatch :
    (∀ v : Value, unit_variant (Option.some v) =
      .error (.invalidType "newtype variant" "unit variant")) ∧
    unit_variant Option.none = .ok () ∧
    (∀ (α : Type) (seed : Value → Except Err α),
      newtype_variant Option.none seed =
        .error (.invalidType "unit variant" "newtype variant")) ∧
    (∀ (α : Type) (visit : List Value → Except Err (α × List Value)),
      tuple_variant Option.none visit = .error (.invalidType "unit variant" "tuple variant")) ∧
    (∀ (α : Type) (vis : AnyVisitor α),
      struct_variant Option.none vis = .error (.invalidType "unit variant" "struct variant")) ∧
    (∀ (α : Type) (v : Value) (visit : List Value → Except Err (α × List Value)),
      tuple_variant (Option.some v) visit = deserialize_seq v visit) ∧
    (∀ (α : Type) (s : String) (visit : List Value → Except Err (α × List Value)),
      tuple_variant (Option.some (Value.str s)) visit = .error (.custom "invalid value type")) ∧
    (∀ (α : Type) (v : Value) (vis : AnyVisitor α),
      struct_variant (Option.some v) vis = deserialize_any v vis) ∧
    (∀ (n : String) (rest : List (String × VShape)) (payload : Option Value),
      decodeVariant ((n, VShape.unit) :: rest) n payload =
        unit_variant payload >>= fun _ => pure (Data.vUnit n)) ∧
    (∀ (n : String) (s : Shape) (rest : List (String × VShape)) (payload : Option Value),
      decodeVariant ((n, VShape.newtype s) :: rest) n payload =
        newtype_variant payload (fun pv => from_value s pv >>= fun d => pure (Data.vNew n d))) ∧
    (∀ (n : String) (ss : List Shape) (rest : List (String × VShape)) (payload : Option Value),
      decodeVariant ((n, VShape.tup ss) :: rest) n payload =
        tuple_variant payload
          (fun vals => decodeTupElems ss vals 0 >>= fun pr => pure (Data.vTup n pr.1, pr.2))) ∧
    (∀ (n : String) (fs : List (String × Shape)) (rest : List (String × VShape))
        (payload : Option Value),
      decodeVariant ((n, VShape.strct fs) :: rest) n payload =
        struct_variant payload (structAnyVisitor (fieldDecoders fs)) >>=
          fun flds => pure (Data.vStruct n flds)) := by
  refine ⟨fun v => rfl, rfl, fun α seed => rfl, fun α visit => rfl, fun α vis => rfl,
    fun α v visit => rfl, fun α s visit => rfl, fun α v vis => rfl,
    fun n rest payload => ?_, fun n s rest payload => ?_,
    fun n ss rest payload => ?_, fun n fs rest payload => ?_⟩
  · rw [decodeVariant.eq_def]
    simp only [beq_self_eq_true, if_true]
    cases payload <;> rfl
  · rw [decodeVariant.eq_def]
    simp only [beq_self_eq_true, if_true]
    cases payload <;> rfl
  · rw [decodeVariant.eq_def]
    simp only [beq_self_eq_true, if_true]
    cases payload with
    | none => rfl
    | some pv =>
      cases pv with
      | table t =>
        show (do
            let (ds, rest2) ← decodeTupElems ss (sequenceValues t) 0
            if rest2.isEmpty then pure (Data.vTup n ds)
            else Except.error (.invalidLength (tableLen t) "fewer elements in array")) =
          (do
            let (a, rest2) ← (do
              let pr ← decodeTupElems ss (sequenceValues t) 0
              pure (Data.vTup n pr.1, pr.2))
            if rest2.isEmpty then pure a
            else Except.error (.invalidLength (tableLen t) "fewer elements in array"))
        cases h : decodeTupElems ss (sequenceValues t) 0 with
        | ok pr => cases pr; rfl
        | error e => rfl
      | nil => rfl
      | boolean b => rfl
      | integer m => rfl
      | number bits => rfl
      | str s2 => rfl
      | other => rfl
  · rw [decodeVariant.eq_def]
    simp only [beq_self_eq_true, if_true]
    cases payload with
    | none => rfl
    | some pv =>
      show (structLike (fieldDecoders fs) pv >>= _) = (deserialize_any pv _ >>= _)
      rw [deserialize_any_structAnyVisitor]

/-- C1 as stated is too strong: the empty map is built only from the allowed
constructors and has no nested Option, yet its encoded table (the empty
table) classifies as a sequence, so decoding it back at the map target
dispatches to visit_seq and fails instead of returning the empty map. -/
theorem c1_counterexample :
    shapeWF (Shape.map .str .int) = true ∧
    noNestedOption (Shape.map .str .int) = true ∧
    hasShape (Shape.map .str .int) (Data.map []) = true ∧
    (to_value (Data.map []) >>= from_value (Shape.map .str .int)) =
      .error (.invalidType "sequence" "a map") ∧
    (to_value (Data.map []) >>= from_value (Shape.map .str .int)) ≠ .ok (Data.map []) :=
  ⟨rfl, rfl, rfl, rfl, fun h => Except.noConfusion h⟩

/-! Lemmas towards the amended round-trip theorem: encoded tables, their
sequence cursors, and the classifier on them. -/

@[simp] theorem valueEq_int_int (a b : Int) :
    valueEq (Value.integer a) (Value.integer b) = (a == b) := rfl

@[simp] theorem valueEq_str_str (a b : String) :
    valueEq (Value.str a) (Value.str b) = (a == b) := rfl

@[simp] theorem valueEq_str_int (a : String) (b : Int) :
    valueEq (Value.str a) (Value.integer b) = false := rfl

theorem isNil_false {v : Value} (h : v ≠ Value.nil) : v.isNil = false := by
  cases v <;> first | exact absurd rfl h | rfl

theorem tableSetRaw_of_ne_nil {v : Value} (t : Table) (k : Value) (h : v ≠ Value.nil) :
    tableSetRaw t k v = replaceOrAppend t k v := by
  cases v <;> first | exact absurd rfl h | rfl

theorem tableSet_of_ne_nil {k : Value} (t : Table) (v : Value) (h : k ≠ Value.nil) :
    tableSet t k v = .ok (tableSetRaw t k v) := by
  cases k <;> first | exact absurd rfl h | rfl

theorem replaceOrAppend_fresh {k : Value} :
    ∀ {t : Table}, (∀ p ∈ t, valueEq p.1 k = false) → ∀ v,
      replaceOrAppend t k v = t ++ [(k, v)] := by
  intro t
  induction t with
  | nil => intro _ v; rfl
  | cons p rest ih =>
    intro h v
    rcases p with ⟨k0, v0⟩
    have hk0 : valueEq k0 k = false := h (k0, v0) (List.mem_cons_self _ _)
    show (if valueEq k0 k then _ else _) = _
    rw [hk0]
    simp only [Bool.false_eq_true, if_false, List.cons_append, List.cons.injEq, true_and]
    exact ih (fun p hp => h p (List.mem_cons_of_mem _ hp)) v

@[simp] theorem enumFromInt_length (i : Int) :
    ∀ vs : List Value, (enumFromInt i vs).length = vs.length := by
  intro vs
  induction vs generalizing i with
  | nil => rfl
  | cons v rest ih => simp [enumFromInt, ih]

@[simp] theorem tableGet_cons (k0 v0 : Value) (rest : Table) (k : Value) :
    tableGet ((k0, v0) :: rest) k = if valueEq k0 k then v0 else tableGet rest k := by
  cases h : valueEq k0 k with
  | true => simp [tableGet, List.find?_cons_of_pos, h]
  | false => simp [tableGet, List.find?_cons_of_neg, h]

theorem tableGet_enumFromInt_miss :
    ∀ (vs : List Value) (i j : Int), (j < i ∨ i + vs.length ≤ j) →
      tableGet (enumFromInt i vs) (Value.integer j) = Value.nil := by
  intro vs
  induction vs with
  | nil => intro i j _; rfl
  | cons v rest ih =>
    intro i j h
    have hij : i ≠ j := by
      rcases h with h | h
      · omega
      · simp only [List.length_cons] at h
        omega
    rw [enumFromInt, tableGet_cons, valueEq_int_int]
    rw [beq_eq_false_iff_ne.mpr hij]
    simp only [Bool.false_eq_true, if_false]
    apply ih
    rcases h with h | h
    · left; omega
    · right
      simp only [List.length_cons] at h
      push_cast at h ⊢
      omega

theorem tableGet_enumFromInt_hit :
    ∀ (pre : List Value) (i : Int) (v : Value) (suf : List Value),
      tableGet (enumFromInt i (pre ++ v :: suf)) (Value.integer (i + pre.length)) = v := by
  intro pre
  induction pre with
  | nil =>
    intro i v suf
    simp [enumFromInt]
  | cons w pre ih =>
    intro i v suf
    have hne : i ≠ i + ((w :: pre).length : Int) := by
      simp only [List.length_cons]
      push_cast
      omega
    rw [List.cons_append, enumFromInt, tableGet_cons, valueEq_int_int,
      beq_eq_false_iff_ne.mpr hne]
    simp only [Bool.false_eq_true, if_false]
    have harith : i + (((w :: pre).length : Nat) : Int) = (i + 1) + pre.length := by
      simp only [List.length_cons]
      push_cast
      omega
    rw [harith]
    exact ih (i + 1) v suf

theorem seqValuesAux_enumFromInt :
    ∀ (suf pre : List Value) (i0 : Int) (fuel : Nat),
      (∀ v ∈ suf, v ≠ Value.nil) → suf.length ≤ fuel →
      seqValuesAux (enumFromInt i0 (pre ++ suf)) fuel (i0 + pre.length) = suf := by
  intro suf
  induction suf with
  | nil =>
    intro pre i0 fuel _ _
    cases fuel with
    | zero => rfl
    | succ f =>
      rw [seqValuesAux]
      simp only [List.append_nil]
      rw [tableGet_enumFromInt_miss (pre) i0 (i0 + pre.length) (by right; omega)]
      rfl
  | cons v suf2 ih =>
    intro pre i0 fuel hnil hfuel
    cases fuel with
    | zero => simp at hfuel
    | succ f =>
      rw [seqValuesAux]
      rw [tableGet_enumFromInt_hit pre i0 v suf2]
      rw [isNil_false (hnil v (List.mem_cons_self _ _))]
      simp only [Bool.false_eq_true, if_false, List.cons.injEq, true_and]
      have harr : pre ++ v :: suf2 = (pre ++ [v]) ++ suf2 := by simp
      have hidx : i0 + (pre.length : Int) + 1 = i0 + ((pre ++ [v]).length : Int) := by
        simp only [List.length_append, List.length_cons, List.length_nil]
        push_cast
        omega
      rw [harr, hidx]
      exact ih (pre ++ [v]) i0 f (fun w hw => hnil w (List.mem_cons_of_mem _ hw))
        (by simpa using Nat.le_of_succ_le_succ hfuel)

theorem sequenceValues_enumFromInt (vs : List Value) (h : ∀ v ∈ vs, v ≠ Value.nil) :
    sequenceValues (enumFromInt 1 vs) = vs := by
  unfold sequenceValues
  have := seqValuesAux_enumFromInt vs [] 1 ((enumFromInt 1 vs).length) h
    (by rw [enumFromInt_length])
  simpa using this

theorem is_seq_enumFromInt (vs : List Value) : is_seq (enumFromInt 1 vs) = true := by
  unfold is_seq
  suffices hgen : ∀ (ws : List Value) (i : Int), isSeqAux (enumFromInt i ws) i = true by
    exact hgen vs 1
  intro ws
  induction ws with
  | nil => intro i; rfl
  | cons w rest ih =>
    intro i
    show (if valueEq (Value.integer i) (Value.integer i) then _ else false) = true
    simp only [valueEq_int_int, beq_self_eq_true, if_true]
    exact ih (i + 1)

theorem encodeSeqInto_spec :
    ∀ {ds : List Data} {vs : List Value},
      List.Forall₂ (fun d v => to_value d = .ok v ∧ v ≠ Value.nil) ds vs →
      ∀ {t : Table} {i : Int},
      (∀ p ∈ t, ∀ j : Int, i ≤ j → valueEq p.1 (Value.integer j) = false) →
      encodeSeqInto t i ds = .ok (t ++ enumFromInt i vs) := by
  intro ds vs hall
  induction hall with
  | nil =>
    intro t i _
    simp [encodeSeqInto, enumFromInt]
  | @cons d v ds2 vs2 hdv htail ih =>
    intro t i hfresh
    rw [encodeSeqInto, hdv.1, okBind]
    rw [tableSetRaw_of_ne_nil t (Value.integer i) hdv.2]
    rw [replaceOrAppend_fresh (fun p hp => hfresh p hp i le_rfl) v]
    rw [ih (t := t ++ [(Value.integer i, v)]) (i := i + 1) ?_]
    · rw [List.append_assoc]
      rfl
    · intro p hp j hj
      rcases List.mem_append.mp hp with hp | hp
      · exact hfresh p hp j (by omega)
      · simp only [List.mem_singleton] at hp
        subst hp
        simp only [valueEq_int_int]
        exact beq_eq_false_iff_ne.mpr (by omega)

theorem mapM_from_value :
    ∀ {s : Shape} {vs : List Value} {ds : List Data},
      List.Forall₂ (fun v d => from_value s v = .ok d) vs ds →
      vs.mapM (from_value s) = .ok ds := by
  intro s vs ds hall
  induction hall with
  | nil => rfl
  | @cons v d vs2 ds2 hvd htail ih =>
    rw [List.mapM_cons, hvd, okBind, ih]
    rfl

theorem decodeTupElems_spec :
    ∀ {ss : List Shape} {ds : List Data} {vs : List Value},
      Forall3 (fun s d v => from_value s v = .ok d) ss ds vs →
      ∀ i : Nat, decodeTupElems ss vs i = .ok (ds, []) := by
  intro ss ds vs hall
  induction hall with
  | nil => intro i; rfl
  | @cons s d v ss2 ds2 vs2 hsdv htail ih =>
    intro i
    rw [decodeTupElems, hsdv, okBind, ih (i + 1), okBind]
    rfl

/-- Choice of pointwise witnesses for a list. -/
theorem exists_forall₂ {α β : Type} {R : α → β → Prop} :
    ∀ {l : List α}, (∀ a ∈ l, ∃ b, R a b) → ∃ l2, List.Forall₂ R l l2 := by
  intro l
  induction l with
  | nil => intro _; exact ⟨[], List.Forall₂.nil⟩
  | cons a rest ih =>
    intro h
    obtain ⟨b, hb⟩ := h a (List.mem_cons_self _ _)
    obtain ⟨l2, hl2⟩ := ih (fun x hx => h x (List.mem_cons_of_mem _ hx))
    exact ⟨b :: l2, List.Forall₂.cons hb hl2⟩

theorem goodList_mem :
    ∀ {ds : List Data}, goodList ds = true →
      ∀ d ∈ ds, goodData d = true ∧ encodesNil d = false := by
  intro ds
  induction ds with
  | nil => intro _ d hd; cases hd
  | cons d2 rest ih =>
    intro h d hd
    rw [goodList] at h
    simp only [Bool.and_eq_true, Bool.not_eq_true'] at h
    rcases List.mem_cons.mp hd with rfl | hd
    · exact ⟨h.1.1, h.1.2⟩
    · exact ih h.2 d hd

theorem goodEntries_mem :
    ∀ {es : List (Data × Data)}, goodEntries es = true →
      ∀ e ∈ es, goodData e.1 = true ∧ encodesNil e.1 = false ∧
        goodData e.2 = true ∧ encodesNil e.2 = false := by
  intro es
  induction es with
  | nil => intro _ e he; cases he
  | cons e2 rest ih =>
    intro h e he
    rcases e2 with ⟨k, v⟩
    rw [goodEntries] at h
    simp only [Bool.and_eq_true, Bool.not_eq_true'] at h
    rcases List.mem_cons.mp he with rfl | he
    · exact ⟨h.1.1.1.1, h.1.1.1.2, h.1.1.2, h.1.2⟩
    · exact ih h.2 e he

theorem goodFields_mem :
    ∀ {fs : List (String × Data)}, goodFields fs = true →
      ∀ f ∈ fs, goodData f.2 = true ∧ encodesNil f.2 = false := by
  intro fs
  induction fs with
  | nil => intro _ f hf; cases hf
  | cons f2 rest ih =>
    intro h f hf
    rcases f2 with ⟨n, d⟩
    rw [goodFields] at h
    simp only [Bool.and_eq_true, Bool.not_eq_true'] at h
    rcases List.mem_cons.mp hf with rfl | hf
    · exact ⟨h.1.1, h.1.2⟩
    · exact ih h.2 f hf

theorem encValOr_of_ok {d : Data} {v : Value} (h : to_value d = .ok v) : encValOr d = v := by
  unfold encValOr
  rw [h]


theorem fieldDecoders_names :
    ∀ fs : List (String × Shape), (fieldDecoders fs).map (fun x => x.1) = fs.map Prod.fst := by
  intro fs
  induction fs with
  | nil => rfl
  | cons f rest ih =>
    rcases f with ⟨n, s⟩
    simp [fieldDecoders, ih]

theorem fieldDecoders_length :
    ∀ fs : List (String × Shape), (fieldDecoders fs).length = fs.length := by
  intro fs
  induction fs with
  | nil => rfl
  | cons f rest ih =>
    rcases f with ⟨n, s⟩
    simp [fieldDecoders, ih]

theorem distinctNames_nodup :
    ∀ {l : List String}, distinctNames l = true → l.Nodup := by
  intro l
  induction l with
  | nil => intro _; exact List.nodup_nil
  | cons n rest ih =>
    intro h
    rw [distinctNames] at h
    simp only [Bool.and_eq_true, Bool.not_eq_true'] at h
    refine List.nodup_cons.mpr ⟨?_, ih h.2⟩
    intro hmem
    have : rest.contains n = true := List.elem_eq_true_of_mem hmem
    rw [this] at h
    exact Bool.noConfusion h.1

theorem idxOf?_append :
    ∀ (pre : List String) (n : String) (post : List String), n ∉ pre →
      idxOf? (pre ++ n :: post) n = Option.some pre.length := by
  intro pre
  induction pre with
  | nil =>
    intro n post _
    simp [idxOf?]
  | cons m pre ih =>
    intro n post hmem
    have hmn : (m == n) = false := by
      refine beq_eq_false_iff_ne.mpr ?_
      intro hEq
      exact hmem (hEq ▸ List.mem_cons_self _ _)
    rw [List.cons_append, idxOf?, hmn]
    simp only [Bool.false_eq_true, if_false]
    rw [ih n post (fun hm => hmem (List.mem_cons_of_mem _ hm))]
    rfl

theorem get?_append_len {α : Type} :
    ∀ (l1 : List α) (x : α) (l2 : List α), (l1 ++ x :: l2).get? l1.length = some x := by
  intro l1
  induction l1 with
  | nil => intro x l2; rfl
  | cons a l1 ih => intro x l2; exact ih x l2

theorem set_append_len {α : Type} :
    ∀ (l1 : List α) (x : α) (l2 : List α) (y : α),
      (l1 ++ x :: l2).set l1.length y = l1 ++ y :: l2 := by
  intro l1
  induction l1 with
  | nil => intro x l2 y; rfl
  | cons a l1 ih =>
    intro x l2 y
    show a :: (l1 ++ x :: l2).set l1.length y = a :: (l1 ++ y :: l2)
    exact congrArg _ (ih x l2 y)

@[simp] theorem keyFieldIdx_str (names : List String) (s : String) :
    keyFieldIdx names (Value.str s) = .ok (idxOf? names s) := rfl

theorem structMapLoop_cons_found (decs : List FieldDec) (k v : Value)
    (rest : List (Value × Value)) (accs : List (Option Data)) (n : String)
    (fdec : Value → Except Err Data) (miss : Except Err Data) (i : Nat)
    (hk : keyFieldIdx (decs.map (fun x => x.1)) k = .ok (Option.some i))
    (h1 : decs.get? i = some (n, fdec, miss))
    (h2 : accs.get? i = some Option.none) :
    structMapLoop decs ((k, v) :: rest) accs =
      (do
        let d ← fdec v
        structMapLoop decs rest (accs.set i (Option.some d))) := by
  rw [structMapLoop, hk, okBind]
  show (match decs.get? i, accs.get? i with
    | Option.some (n2, fdec2, _), Option.some acc =>
      (match acc with
      | Option.some _ => Except.error (Err.custom ("duplicate field " ++ n2))
      | Option.none => do
        let d ← fdec2 v
        structMapLoop decs rest (accs.set i (Option.some d)))
    | _, _ => Except.error (Err.custom "bad field index")) = _
  rw [h1, h2]

theorem structMapLoop_spec :
    ∀ {post : List FieldDec} {vs : List Value} {ds : List Data},
      Forall3 (fun (fd : FieldDec) (v : Value) (d : Data) => fd.2.1 v = .ok d) post vs ds →
      ∀ (pre : List FieldDec) (dsPre : List Data),
      ((pre ++ post).map (fun x => x.1)).Nodup →
      dsPre.length = pre.length →
      structMapLoop (pre ++ post) (strTable (post.map (fun x => x.1)) vs)
        (dsPre.map Option.some ++ post.map (fun _ => Option.none)) =
      .ok ((dsPre ++ ds).map Option.some) := by
  intro post vs ds hall
  induction hall with
  | nil =>
    intro pre dsPre _ _
    simp [strTable, structMapLoop]
  | @cons fd v d post2 vs2 ds2 hfd htail ih =>
    intro pre dsPre hnodup hlen
    obtain ⟨n, fdec, miss⟩ := fd
    have hnames : (pre ++ (n, fdec, miss) :: post2).map (fun x => x.1) =
        pre.map (fun x => x.1) ++ n :: post2.map (fun x => x.1) := by
      simp
    have hnotpre : n ∉ pre.map (fun x => x.1) := by
      rw [hnames] at hnodup
      rcases List.nodup_append.mp hnodup with ⟨h1, h2, hdisj⟩
      intro hmem
      exact hdisj hmem (List.mem_cons_self _ _)
    have hidx : idxOf? ((pre ++ (n, fdec, miss) :: post2).map (fun x => x.1)) n =
        Option.some pre.length := by
      rw [hnames, idxOf?_append _ n _ hnotpre]
      simp
    have hlen2 : (dsPre.map Option.some).length = pre.length := by simp [hlen]
    have hget1 : (pre ++ (n, fdec, miss) :: post2).get? pre.length =
        some (n, fdec, miss) := get?_append_len pre _ post2
    have hget2 : (dsPre.map Option.some ++
        ((n, fdec, miss) :: post2).map (fun _ => (Option.none : Option Data))).get?
          pre.length = some Option.none := by
      rw [List.map_cons, ← hlen2]
      exact get?_append_len _ _ _
    have hstep := structMapLoop_cons_found (pre ++ (n, fdec, miss) :: post2)
      (Value.str n) v (strTable (post2.map (fun x => x.1)) vs2)
      (dsPre.map Option.some ++ ((n, fdec, miss) :: post2).map (fun _ => Option.none))
      n fdec miss pre.length (by rw [keyFieldIdx_str, hidx]) hget1 hget2
    show structMapLoop (pre ++ (n, fdec, miss) :: post2)
        ((Value.str n, v) :: strTable (post2.map (fun x => x.1)) vs2) _ = _
    have hfd2 : fdec v = .ok d := hfd
    rw [hstep, hfd2, okBind]
    have hset : (dsPre.map Option.some ++
        ((n, fdec, miss) :: post2).map (fun _ => (Option.none : Option Data))).set
          pre.length (Option.some d) =
        (dsPre ++ [d]).map Option.some ++ post2.map (fun _ => (Option.none : Option Data)) := by
      rw [List.map_cons, ← hlen2, set_append_len]
      simp
    rw [hset]
    have happ : pre ++ (n, fdec, miss) :: post2 = (pre ++ [(n, fdec, miss)]) ++ post2 := by
      simp
    rw [happ]
    rw [ih (pre ++ [(n, fdec, miss)]) (dsPre ++ [d]) (by rw [← happ]; exact hnodup)
      (by simp [hlen])]
    simp


theorem finalizeFields_spec :
    ∀ (decs : List FieldDec) (gs : List (String × Data)),
      decs.map (fun x => x.1) = gs.map Prod.fst → decs.length = gs.length →
      finalizeFields decs ((gs.map Prod.snd).map Option.some) = .ok gs := by
  intro decs
  induction decs with
  | nil =>
    intro gs hnames hlen
    cases gs with
    | nil => rfl
    | cons g gs2 => cases hlen
  | cons fd decs ih =>
    intro gs hnames hlen
    cases gs with
    | nil => cases hlen
    | cons g gs2 =>
      obtain ⟨n, fdec, miss⟩ := fd
      obtain ⟨gn, gd⟩ := g
      simp only [List.map_cons, List.cons.injEq] at hnames
      simp only [List.length_cons, Nat.succ.injEq] at hlen
      show (do
        let d ← Except.ok gd
        let rest ← finalizeFields decs ((gs2.map Prod.snd).map Option.some)
        pure ((n, d) :: rest)) = _
      rw [okBind, ih gs2 hnames.2 hlen]
      simp [hnames.1]

theorem encodeFieldsInto_spec :
    ∀ {fsD : List (String × Data)} {vs : List Value},
      List.Forall₂ (fun (g : String × Data) (v : Value) =>
        to_value g.2 = .ok v ∧ v ≠ Value.nil) fsD vs →
      ∀ {t : Table}, (∀ p ∈ t, ∀ n2 ∈ fsD.map Prod.fst, valueEq p.1 (Value.str n2) = false) →
      (fsD.map Prod.fst).Nodup →
      encodeFieldsInto t fsD = .ok (t ++ strTable (fsD.map Prod.fst) vs) := by
  intro fsD vs hall
  induction hall with
  | nil =>
    intro t _ _
    simp [encodeFieldsInto, strTable]
  | @cons g v fsD2 vs2 hgv htail ih =>
    intro t hfresh hnodup
    obtain ⟨n, d⟩ := g
    have henc : to_value d = .ok v := hgv.1
    show (do
      let v2 ← to_value d
      encodeFieldsInto (tableSetRaw t (Value.str n) v2) fsD2) = _
    rw [henc, okBind, tableSetRaw_of_ne_nil t (Value.str n) hgv.2]
    rw [replaceOrAppend_fresh
      (fun p hp => hfresh p hp n (by simp)) v]
    simp only [List.map_cons] at hnodup
    have hnodup2 := List.nodup_cons.mp hnodup
    rw [ih (t := t ++ [(Value.str n, v)]) ?_ hnodup2.2]
    · simp [strTable]
    · intro p hp n2 hn2
      rcases List.mem_append.mp hp with hp | hp
      · exact hfresh p hp n2 (by simp only [List.map_cons]; exact List.mem_cons_of_mem _ hn2)
      · simp only [List.mem_singleton] at hp
        subst hp
        simp only [valueEq_str_str]
        refine beq_eq_false_iff_ne.mpr ?_
        intro hEq
        exact hnodup2.1 (hEq ▸ hn2)

theorem forall3_fields_names :
    ∀ {fsS : List (String × Shape)} {fsD : List (String × Data)} {vs : List Value},
      Forall3 (fun (f : String × Shape) (g : String × Data) (v : Value) =>
        f.1 = g.1 ∧ to_value g.2 = .ok v ∧ v ≠ Value.nil ∧ from_value f.2 v = .ok g.2)
        fsS fsD vs →
      fsS.map Prod.fst = fsD.map Prod.fst ∧ fsS.length = fsD.length ∧
      List.Forall₂ (fun (g : String × Data) (v : Value) =>
        to_value g.2 = .ok v ∧ v ≠ Value.nil) fsD vs ∧
      Forall3 (fun (fd : FieldDec) (v : Value) (d : Data) => fd.2.1 v = .ok d)
        (fieldDecoders fsS) vs (fsD.map Prod.snd) := by
  intro fsS fsD vs hall
  induction hall with
  | nil => exact ⟨rfl, rfl, List.Forall₂.nil, Forall3.nil⟩
  | @cons f g v fsS2 fsD2 vs2 hfgv htail ih =>
    obtain ⟨n, s⟩ := f
    have hn : n = g.1 := hfgv.1
    refine ⟨?_, ?_, ?_, ?_⟩
    · simp only [List.map_cons, ih.1, hn]
    · simp [ih.2.1]
    · exact List.Forall₂.cons ⟨hfgv.2.1, hfgv.2.2.1⟩ ih.2.2.1
    · exact Forall3.cons hfgv.2.2.2 ih.2.2.2

theorem structLike_rt :
    ∀ {fsS : List (String × Shape)} {fsD : List (String × Data)} {vs : List Value},
      Forall3 (fun (f : String × Shape) (g : String × Data) (v : Value) =>
        f.1 = g.1 ∧ to_value g.2 = .ok v ∧ v ≠ Value.nil ∧ from_value f.2 v = .ok g.2)
        fsS fsD vs →
      (fsS.map Prod.fst).Nodup →
      encodeFieldsInto [] fsD = .ok (strTable (fsD.map Prod.fst) vs) ∧
      structLike (fieldDecoders fsS) (.table (strTable (fsD.map Prod.fst) vs)) = .ok fsD := by
  intro fsS fsD vs hall hnodup
  obtain ⟨hnames, hlen, hencs, hdecs⟩ := forall3_fields_names hall
  constructor
  · have := encodeFieldsInto_spec hencs (t := []) (fun p hp => absurd hp (List.not_mem_nil p))
      (hnames ▸ hnodup)
    simpa using this
  · have hnamesF : (fieldDecoders fsS).map (fun x => x.1) = fsD.map Prod.fst := by
      rw [fieldDecoders_names]
      exact hnames
    have hloop := structMapLoop_spec hdecs [] []
      (by simpa [fieldDecoders_names] using hnodup) rfl
    simp only [List.nil_append, List.map_nil] at hloop
    rw [hnamesF] at hloop
    have hfinlen : (fieldDecoders fsS).length = fsD.length := by
      rw [fieldDecoders_length, hlen]
    have hfin := finalizeFields_spec _ _ hnamesF hfinlen
    cases hall with
    | nil => rfl
    | @cons f g v fsS2 fsD2 vs2 hfgv htail =>
      obtain ⟨n, s⟩ := f
      obtain ⟨gn, gd⟩ := g
      have hgn : n = gn := hfgv.1
      subst hgn
      have hisseq : is_seq ((Value.str n, v) :: strTable (fsD2.map Prod.fst) vs2) = false := rfl
      show structLike (fieldDecoders ((n, s) :: fsS2))
          (.table ((Value.str n, v) :: strTable (fsD2.map Prod.fst) vs2)) = _
      rw [structLike, hisseq]
      simp only [Bool.false_eq_true, if_false]
      have hpairs : (Value.str n, v) :: strTable (fsD2.map Prod.fst) vs2 =
          strTable (((n, gd) :: fsD2).map Prod.fst) (v :: vs2) := rfl
      rw [hpairs]
      rw [hloop]
      rw [okBind]
      exact hfin


theorem encodeEntriesInto_spec :
    ∀ {es : List (Data × Data)} {ps : List (Value × Value)},
      List.Forall₂ (fun (e : Data × Data) (p : Value × Value) =>
        to_value e.1 = .ok p.1 ∧ to_value e.2 = .ok p.2 ∧
        p.1 ≠ Value.nil ∧ p.2 ≠ Value.nil) es ps →
      ∀ {t : Table}, (∀ q ∈ t, ∀ p ∈ ps, valueEq q.1 p.1 = false) →
      List.Pairwise (fun p q => valueEq p.1 q.1 = false) ps →
      encodeEntriesInto t es = .ok (t ++ ps) := by
  intro es ps hall
  induction hall with
  | nil =>
    intro t _ _
    simp [encodeEntriesInto]
  | @cons e p es2 ps2 hep htail ih =>
    intro t hfresh hpw
    obtain ⟨dk, dv⟩ := e
    obtain ⟨pk, pv⟩ := p
    show (do
      let k ← to_value dk
      let v ← to_value dv
      let t2 ← tableSet t k v
      encodeEntriesInto t2 es2) = _
    rw [hep.1, okBind, hep.2.1, okBind, tableSet_of_ne_nil t pv hep.2.2.1, okBind]
    rw [tableSetRaw_of_ne_nil t pk hep.2.2.2]
    rw [replaceOrAppend_fresh (fun q hq => hfresh q hq (pk, pv) (List.mem_cons_self _ _)) pv]
    rw [ih (t := t ++ [(pk, pv)]) ?_ (List.pairwise_cons.mp hpw).2]
    · simp
    · intro q hq p2 hp2
      rcases List.mem_append.mp hq with hq | hq
      · exact hfresh q hq p2 (List.mem_cons_of_mem _ hp2)
      · simp only [List.mem_singleton] at hq
        subst hq
        exact (List.pairwise_cons.mp hpw).1 p2 hp2

theorem keysAll_spec :
    ∀ {es : List (Data × Data)} {ps : List (Value × Value)},
      List.Forall₂ (fun (e : Data × Data) (p : Value × Value) =>
        to_value e.1 = .ok p.1 ∧ to_value e.2 = .ok p.2 ∧
        p.1 ≠ Value.nil ∧ p.2 ≠ Value.nil) es ps →
      ∀ {w : Value}, (es.all (fun x => !valueEq w (encValOr x.1))) = true →
      ∀ q ∈ ps, valueEq w q.1 = false := by
  intro es ps hall
  induction hall with
  | nil => intro w _ q hq; cases hq
  | @cons e p es2 ps2 hep htail ih =>
    intro w hal q hq
    simp only [List.all_cons, Bool.and_eq_true, Bool.not_eq_true'] at hal
    rcases List.mem_cons.mp hq with rfl | hq
    · rw [← encValOr_of_ok hep.1]
      exact hal.1
    · exact ih (by simp [List.all_eq_true] at hal ⊢; exact fun x hx => hal.2 x hx) q hq

theorem keysDistinct_pairwise :
    ∀ {es : List (Data × Data)} {ps : List (Value × Value)},
      List.Forall₂ (fun (e : Data × Data) (p : Value × Value) =>
        to_value e.1 = .ok p.1 ∧ to_value e.2 = .ok p.2 ∧
        p.1 ≠ Value.nil ∧ p.2 ≠ Value.nil) es ps →
      keysDistinct es = true →
      List.Pairwise (fun p q => valueEq p.1 q.1 = false) ps := by
  intro es ps hall
  induction hall with
  | nil => intro _; exact List.Pairwise.nil
  | @cons e p es2 ps2 hep htail ih =>
    intro hkd
    obtain ⟨dk, dv⟩ := e
    rw [keysDistinct] at hkd
    simp only [Bool.and_eq_true] at hkd
    refine List.pairwise_cons.mpr ⟨?_, ih hkd.2⟩
    intro q hq
    have := keysAll_spec htail (w := encValOr dk) hkd.1 q hq
    rwa [encValOr_of_ok hep.1] at this

theorem mapM_entries :
    ∀ {ks vsh : Shape} {ps : List (Value × Value)} {es : List (Data × Data)},
      List.Forall₂ (fun (p : Value × Value) (e : Data × Data) =>
        from_value ks p.1 = .ok e.1 ∧ from_value vsh p.2 = .ok e.2) ps es →
      ps.mapM (fun p => do
        let dk ← from_value ks p.1
        let dv ← from_value vsh p.2
        pure (dk, dv)) = .ok es := by
  intro ks vsh ps es hall
  induction hall with
  | nil => rfl
  | @cons p e ps2 es2 hpe htail ih =>
    obtain ⟨dk, dv⟩ := e
    rw [List.mapM_cons, hpe.1, okBind, hpe.2, okBind, purePE, okBind, ih]
    rfl

theorem hasVariant_decomp :
    ∀ {variants : List (String × VShape)} {d : Data} {nm : String},
      hasVariant variants d = true → dName d = Option.some nm →
      ∃ pre vk post, variants = pre ++ (nm, vk) :: post ∧
        (∀ q ∈ pre, (q.1 == nm) = false) ∧ variantMatches vk d = true := by
  intro variants
  induction variants with
  | nil => intro d nm h _; exact absurd h (by rw [hasVariant]; simp)
  | cons q rest ih =>
    intro d nm h hd
    obtain ⟨n, vk0⟩ := q
    rw [hasVariant, hd] at h
    have h2 : (if (n == nm) = true then variantMatches vk0 d else hasVariant rest d) = true := h
    by_cases hn : (n == nm) = true
    · rw [if_pos hn] at h2
      have : n = nm := by simpa using hn
      subst this
      exact ⟨[], vk0, rest, rfl, fun q hq => absurd hq (List.not_mem_nil q), h2⟩
    · rw [if_neg hn] at h2
      obtain ⟨pre, vk, post, heq, hpre, hmatch⟩ := ih h2 hd
      refine ⟨(n, vk0) :: pre, vk, post, by rw [heq]; rfl, ?_, hmatch⟩
      intro q hq
      rcases List.mem_cons.mp hq with rfl | hq
      · simpa using hn
      · exact hpre q hq

theorem decodeVariant_skip :
    ∀ {pre : List (String × VShape)} (rest : List (String × VShape)) (nm : String)
      (payload : Option Value), (∀ q ∈ pre, (q.1 == nm) = false) →
      decodeVariant (pre ++ rest) nm payload = decodeVariant rest nm payload := by
  intro pre
  induction pre with
  | nil => intro rest nm payload _; rfl
  | cons q pre ih =>
    intro rest nm payload h
    obtain ⟨n, vk⟩ := q
    have hn : (n == nm) = false := h (n, vk) (List.mem_cons_self _ _)
    rw [List.cons_append, decodeVariant.eq_def]
    simp only [hn, Bool.false_eq_true, if_false]
    exact ih rest nm payload (fun q hq => h q (List.mem_cons_of_mem _ hq))


theorem hasVariant_dNone :
    ∀ (variants : List (String × VShape)) (d : Data), dName d = Option.none →
      hasVariant variants d = false := by
  intro variants
  induction variants with
  | nil => intro d _; rfl
  | cons q rest ih =>
    intro d hd
    obtain ⟨n, vk⟩ := q
    rw [hasVariant, hd]

theorem exists_seq_witnesses {s : Shape} :
    ∀ {ds : List Data}, shapeWF s = true → ds.all (hasShape s) = true →
      goodList ds = true → (∀ d ∈ ds, RTProp d) →
      ∃ vs, List.Forall₂ (fun d v => to_value d = .ok v ∧ v ≠ Value.nil) ds vs ∧
        List.Forall₂ (fun v d => from_value s v = .ok d) vs ds := by
  intro ds
  induction ds with
  | nil => intro _ _ _ _; exact ⟨[], List.Forall₂.nil, List.Forall₂.nil⟩
  | cons d ds2 ih =>
    intro hwf hall hgood hrt
    simp only [List.all_cons, Bool.and_eq_true] at hall
    have hg := goodList_mem hgood d (List.mem_cons_self _ _)
    have hgood2 : goodList ds2 = true := by
      rw [goodList] at hgood
      simp only [Bool.and_eq_true] at hgood
      exact hgood.2
    obtain ⟨v, henc, hdec, hiff⟩ := hrt d (List.mem_cons_self _ _) s hwf hall.1 hg.1
    have hvnil : v ≠ Value.nil := by
      intro hv
      rw [hg.2] at hiff
      exact Bool.noConfusion (hiff.mp hv)
    obtain ⟨vs, h1, h2⟩ := ih hwf hall.2 hgood2 (fun d2 hd2 => hrt d2 (List.mem_cons_of_mem _ hd2))
    exact ⟨v :: vs, List.Forall₂.cons ⟨henc, hvnil⟩ h1, List.Forall₂.cons hdec h2⟩

theorem exists_tuple_witnesses :
    ∀ {ss : List Shape} {ds : List Data}, shapeWFList ss = true →
      hasShapeList ss ds = true → goodList ds = true → (∀ d ∈ ds, RTProp d) →
      ∃ vs, List.Forall₂ (fun d v => to_value d = .ok v ∧ v ≠ Value.nil) ds vs ∧
        Forall3 (fun s d v => from_value s v = .ok d) ss ds vs := by
  intro ss
  induction ss with
  | nil =>
    intro ds _ hsh _ _
    cases ds with
    | nil => exact ⟨[], List.Forall₂.nil, Forall3.nil⟩
    | cons d ds2 => exact Bool.noConfusion hsh
  | cons s ss2 ih =>
    intro ds hwf hsh hgood hrt
    cases ds with
    | nil => exact Bool.noConfusion hsh
    | cons d ds2 =>
      rw [hasShapeList] at hsh
      rw [shapeWFList] at hwf
      simp only [Bool.and_eq_true] at hsh hwf
      have hg := goodList_mem hgood d (List.mem_cons_self _ _)
      have hgood2 : goodList ds2 = true := by
        rw [goodList] at hgood
        simp only [Bool.and_eq_true] at hgood
        exact hgood.2
      obtain ⟨v, henc, hdec, hiff⟩ := hrt d (List.mem_cons_self _ _) s hwf.1 hsh.1 hg.1
      have hvnil : v ≠ Value.nil := by
        intro hv
        rw [hg.2] at hiff
        exact Bool.noConfusion (hiff.mp hv)
      obtain ⟨vs, h1, h2⟩ := ih hwf.2 hsh.2 hgood2
        (fun d2 hd2 => hrt d2 (List.mem_cons_of_mem _ hd2))
      exact ⟨v :: vs, List.Forall₂.cons ⟨henc, hvnil⟩ h1, Forall3.cons hdec h2⟩

theorem exists_fields_witnesses :
    ∀ {fsS : List (String × Shape)} {fsD : List (String × Data)},
      shapeWFFields fsS = true → hasShapeFields fsS fsD = true → goodFields fsD = true →
      (∀ f ∈ fsD, RTProp f.2) →
      ∃ vs, Forall3 (fun (f : String × Shape) (g : String × Data) (v : Value) =>
        f.1 = g.1 ∧ to_value g.2 = .ok v ∧ v ≠ Value.nil ∧ from_value f.2 v = .ok g.2)
        fsS fsD vs := by
  intro fsS
  induction fsS with
  | nil =>
    intro fsD _ hsh _ _
    cases fsD with
    | nil => exact ⟨[], Forall3.nil⟩
    | cons g gs => exact Bool.noConfusion hsh
  | cons f fsS2 ih =>
    intro fsD hwf hsh hgood hrt
    cases fsD with
    | nil =>
      obtain ⟨n, s⟩ := f
      exact Bool.noConfusion hsh
    | cons g fsD2 =>
      obtain ⟨n, s⟩ := f
      obtain ⟨m, d⟩ := g
      rw [hasShapeFields] at hsh
      rw [shapeWFFields] at hwf
      simp only [Bool.and_eq_true] at hsh hwf
      have hg := goodFields_mem hgood (m, d) (List.mem_cons_self _ _)
      have hgood2 : goodFields fsD2 = true := by
        rw [goodFields] at hgood
        simp only [Bool.and_eq_true] at hgood
        exact hgood.2
      obtain ⟨v, henc, hdec, hiff⟩ := hrt (m, d) (List.mem_cons_self _ _) s hwf.1 hsh.1.2 hg.1
      have hvnil : v ≠ Value.nil := by
        intro hv
        rw [hg.2] at hiff
        exact Bool.noConfusion (hiff.mp hv)
      obtain ⟨vs, h2⟩ := ih hwf.2 hsh.2 hgood2 (fun g2 hg2 => hrt g2 (List.mem_cons_of_mem _ hg2))
      exact ⟨v :: vs, Forall3.cons ⟨by simpa using hsh.1.1, henc, hvnil, hdec⟩ h2⟩

theorem exists_entries_witnesses {ks vsh : Shape} :
    ∀ {es : List (Data × Data)}, shapeWF ks = true → shapeWF vsh = true →
      es.all (fun p => hasShape ks p.1 && hasShape vsh p.2) = true →
      goodEntries es = true → (∀ e ∈ es, RTProp e.1 ∧ RTProp e.2) →
      ∃ ps, List.Forall₂ (fun (e : Data × Data) (p : Value × Value) =>
          to_value e.1 = .ok p.1 ∧ to_value e.2 = .ok p.2 ∧
          p.1 ≠ Value.nil ∧ p.2 ≠ Value.nil) es ps ∧
        List.Forall₂ (fun (p : Value × Value) (e : Data × Data) =>
          from_value ks p.1 = .ok e.1 ∧ from_value vsh p.2 = .ok e.2) ps es := by
  intro es
  induction es with
  | nil => intro _ _ _ _ _; exact ⟨[], List.Forall₂.nil, List.Forall₂.nil⟩
  | cons e es2 ih =>
    intro hwfk hwfv hall hgood hrt
    obtain ⟨dk, dv⟩ := e
    simp only [List.all_cons, Bool.and_eq_true] at hall
    have hg := goodEntries_mem hgood (dk, dv) (List.mem_cons_self _ _)
    have hgood2 : goodEntries es2 = true := by
      rw [goodEntries] at hgood
      simp only [Bool.and_eq_true] at hgood
      exact hgood.2
    obtain ⟨pk, henck, hdeck, hiffk⟩ :=
      (hrt (dk, dv) (List.mem_cons_self _ _)).1 ks hwfk hall.1.1 hg.1
    obtain ⟨pv, hencv, hdecv, hiffv⟩ :=
      (hrt (dk, dv) (List.mem_cons_self _ _)).2 vsh hwfv hall.1.2 hg.2.2.1
    have hknil : pk ≠ Value.nil := by
      intro hv
      rw [hg.2.1] at hiffk
      exact Bool.noConfusion (hiffk.mp hv)
    have hvnil : pv ≠ Value.nil := by
      intro hv
      rw [hg.2.2.2] at hiffv
      exact Bool.noConfusion (hiffv.mp hv)
    obtain ⟨ps, h1, h2⟩ := ih hwfk hwfv hall.2 hgood2
      (fun e2 he2 => hrt e2 (List.mem_cons_of_mem _ he2))
    exact ⟨(pk, pv) :: ps, List.Forall₂.cons ⟨henck, hencv, hknil, hvnil⟩ h1,
      List.Forall₂.cons ⟨hdeck, hdecv⟩ h2⟩


theorem from_value_option_not_nil (s : Shape) {v : Value} (h : v ≠ Value.nil) :
    from_value (.option s) v = (do
      let d ← from_value s v
      pure (Data.some d)) := by
  cases v <;> first | exact absurd rfl h | rfl

theorem forall₂_nonnil :
    ∀ {ds : List Data} {vs : List Value},
      List.Forall₂ (fun d v => to_value d = .ok v ∧ v ≠ Value.nil) ds vs →
      ∀ v ∈ vs, v ≠ Value.nil := by
  intro ds vs h
  induction h with
  | nil => intro v hv; cases hv
  | @cons d v ds2 vs2 hdv htail ih =>
    intro w hw
    rcases List.mem_cons.mp hw with rfl | hw
    · exact hdv.2
    · exact ih w hw

theorem shapeWFVariants_mem :
    ∀ {variants : List (String × VShape)} {q : String × VShape},
      shapeWFVariants variants = true → q ∈ variants → shapeWFVariant q.2 = true := by
  intro variants
  induction variants with
  | nil => intro q _ hq; cases hq
  | cons r rest ih =>
    intro q h hq
    obtain ⟨n, vk⟩ := r
    rw [shapeWFVariants] at h
    simp only [Bool.and_eq_true] at h
    rcases List.mem_cons.mp hq with rfl | hq
    · exact h.1
    · exact ih h.2 hq

example (d2 : Data) : sizeOf (Data.some d2) = 1 + sizeOf d2 := rfl

theorem decodeVariant_head_unit (n : String) (rest : List (String × VShape)) :
    decodeVariant ((n, VShape.unit) :: rest) n Option.none = .ok (.vUnit n) := by
  rw [decodeVariant.eq_def]
  simp only [beq_self_eq_true, if_true]

theorem decodeVariant_head_newtype (n : String) (s : Shape) (rest : List (String × VShape))
    (v : Value) :
    decodeVariant ((n, VShape.newtype s) :: rest) n (Option.some v) = (do
      let d ← from_value s v
      pure (Data.vNew n d)) := by
  rw [decodeVariant.eq_def]
  simp only [beq_self_eq_true, if_true]

theorem decodeVariant_head_tup (n : String) (ss : List Shape) (rest : List (String × VShape))
    (t : Table) :
    decodeVariant ((n, VShape.tup ss) :: rest) n (Option.some (.table t)) = (do
      let (ds, r) ← decodeTupElems ss (sequenceValues t) 0
      if r.isEmpty then pure (Data.vTup n ds)
      else Except.error (Err.invalidLength (tableLen t) "fewer elements in array")) := by
  rw [decodeVariant.eq_def]
  simp only [beq_self_eq_true, if_true]

theorem decodeVariant_head_strct (n : String) (fs : List (String × Shape))
    (rest : List (String × VShape)) (v : Value) :
    decodeVariant ((n, VShape.strct fs) :: rest) n (Option.some v) = (do
      let flds ← structLike (fieldDecoders fs) v
      pure (.vStruct n flds)) := by
  rw [decodeVariant.eq_def]
  simp only [beq_self_eq_true, if_true]

theorem roundtrip_bounded : ∀ (n : Nat) (d : Data), sizeOf d ≤ n → RTProp d := by
  intro n
  induction n with
  | zero =>
    intro d hd
    exfalso
    cases d <;> simp at hd
  | succ n ih =>
    intro d hd S hWF hS hG
    cases d with
    | bool b =>
      cases S <;> try exact Bool.noConfusion hS
      case bool => exact ⟨.boolean b, rfl, rfl, by simp [encodesNil]⟩
      case enum vs =>
        have hS2 : hasVariant vs (Data.bool b) = true := hS
        rw [hasVariant_dNone vs (Data.bool b) rfl] at hS2
        exact Bool.noConfusion hS2
    | int m =>
      cases S <;> try exact Bool.noConfusion hS
      case int => exact ⟨.integer m, rfl, rfl, by simp [encodesNil]⟩
      case enum vs =>
        have hS2 : hasVariant vs (Data.int m) = true := hS
        rw [hasVariant_dNone vs (Data.int m) rfl] at hS2
        exact Bool.noConfusion hS2
    | float bits =>
      cases S <;> try exact Bool.noConfusion hS
      case float => exact ⟨.number bits, rfl, rfl, by simp [encodesNil]⟩
      case enum vs =>
        have hS2 : hasVariant vs (Data.float bits) = true := hS
        rw [hasVariant_dNone vs (Data.float bits) rfl] at hS2
        exact Bool.noConfusion hS2
    | str s2 =>
      cases S <;> try exact Bool.noConfusion hS
      case str => exact ⟨.str s2, rfl, rfl, by simp [encodesNil]⟩
      case enum vs =>
        have hS2 : hasVariant vs (Data.str s2) = true := hS
        rw [hasVariant_dNone vs (Data.str s2) rfl] at hS2
        exact Bool.noConfusion hS2
    | unit =>
      cases S <;> try exact Bool.noConfusion hS
      case unit => exact ⟨.nil, rfl, rfl, by simp [encodesNil]⟩
      case enum vs =>
        have hS2 : hasVariant vs Data.unit = true := hS
        rw [hasVariant_dNone vs Data.unit rfl] at hS2
        exact Bool.noConfusion hS2
    | none =>
      cases S <;> try exact Bool.noConfusion hS
      case option s => exact ⟨.nil, rfl, rfl, by simp [encodesNil]⟩
      case enum vs =>
        have hS2 : hasVariant vs Data.none = true := hS
        rw [hasVariant_dNone vs Data.none rfl] at hS2
        exact Bool.noConfusion hS2
    | some d2 =>
      cases S <;> try exact Bool.noConfusion hS
      case option s =>
        have hS2 : hasShape s d2 = true := hS
        have hWF2 : shapeWF s = true := hWF
        have hG2 : (goodData d2 && !encodesNil d2) = true := hG
        simp only [Bool.and_eq_true, Bool.not_eq_true'] at hG2
        have hsz : sizeOf d2 ≤ n := by
          have h2 : sizeOf (Data.some d2) = 1 + sizeOf d2 := rfl
          omega
        obtain ⟨v2, henc, hdec, hiff⟩ := ih d2 hsz s hWF2 hS2 hG2.1
        have hvnil : v2 ≠ Value.nil := by
          intro hv
          rw [hG2.2] at hiff
          exact Bool.noConfusion (hiff.mp hv)
        refine ⟨v2, henc, ?_, ?_⟩
        · rw [from_value_option_not_nil s hvnil, hdec]
          rfl
        · show v2 = Value.nil ↔ encodesNil d2 = true
          exact hiff
      case enum vs =>
        have hS2 : hasVariant vs (Data.some d2) = true := hS
        rw [hasVariant_dNone vs (Data.some d2) rfl] at hS2
        exact Bool.noConfusion hS2
    | seq ds =>
      cases S <;> try exact Bool.noConfusion hS
      case seq s =>
        have hS2 : ds.all (hasShape s) = true := hS
        have hWF2 : shapeWF s = true := hWF
        have hG2 : goodList ds = true := hG
        have hmem : ∀ d2 ∈ ds, RTProp d2 := by
          intro d2 hd2
          refine ih d2 ?_
          have h1 : sizeOf d2 < sizeOf ds := List.sizeOf_lt_of_mem hd2
          have h2 : sizeOf (Data.seq ds) = 1 + sizeOf ds := by simp
          omega
        obtain ⟨vs, hencs, hdecs⟩ := exists_seq_witnesses hWF2 hS2 hG2 hmem
        have hnil := forall₂_nonnil hencs
        have hencs2 : List.Forall₂ (fun d v => to_value d = .ok v ∧ v ≠ Value.nil) ds vs :=
          hencs
        refine ⟨.table (enumFromInt 1 vs), ?_, ?_, by simp [encodesNil]⟩
        · show (do
            let t ← encodeSeqInto [] 1 ds
            pure (Value.table t)) = _
          rw [encodeSeqInto_spec hencs2 (t := []) (i := 1)
            (fun p hp => absurd hp (List.not_mem_nil p))]
          simp
        · show (do
            let ds2 ← (sequenceValues (enumFromInt 1 vs)).mapM (from_value s)
            pure (Data.seq ds2)) = _
          rw [sequenceValues_enumFromInt vs hnil, mapM_from_value hdecs]
          rfl
      case enum vs2 =>
        have hS2 : hasVariant vs2 (Data.seq ds) = true := hS
        rw [hasVariant_dNone vs2 (Data.seq ds) rfl] at hS2
        exact Bool.noConfusion hS2
    | tup ds =>
      cases S <;> try exact Bool.noConfusion hS
      case tuple ss =>
        have hS2 : hasShapeList ss ds = true := hS
        have hWF2 : shapeWFList ss = true := hWF
        have hG2 : goodList ds = true := hG
        have hmem : ∀ d2 ∈ ds, RTProp d2 := by
          intro d2 hd2
          refine ih d2 ?_
          have h1 : sizeOf d2 < sizeOf ds := List.sizeOf_lt_of_mem hd2
          have h2 : sizeOf (Data.tup ds) = 1 + sizeOf ds := by simp
          omega
        obtain ⟨vs, hencs, hdec3⟩ := exists_tuple_witnesses hWF2 hS2 hG2 hmem
        have hnil := forall₂_nonnil hencs
        refine ⟨.table (enumFromInt 1 vs), ?_, ?_, by simp [encodesNil]⟩
        · show (do
            let t ← encodeSeqInto [] 1 ds
            pure (Value.table t)) = _
          rw [encodeSeqInto_spec hencs (t := []) (i := 1)
            (fun p hp => absurd hp (List.not_mem_nil p))]
          simp
        · have hlen : tableLen (enumFromInt 1 vs) = vs.length := by
            unfold tableLen
            rw [sequenceValues_enumFromInt vs hnil]
          show (do
            let (ds2, rest) ← decodeTupElems ss (sequenceValues (enumFromInt 1 vs)) 0
            if rest.isEmpty then pure (Data.tup ds2)
            else Except.error (Err.invalidLength (tableLen (enumFromInt 1 vs)) "fewer elements in array")) = _
          rw [sequenceValues_enumFromInt vs hnil, decodeTupElems_spec hdec3 0, okBind]
          rfl
      case enum vs2 =>
        have hS2 : hasVariant vs2 (Data.tup ds) = true := hS
        rw [hasVariant_dNone vs2 (Data.tup ds) rfl] at hS2
        exact Bool.noConfusion hS2
    | map es =>
      cases S <;> try exact Bool.noConfusion hS
      case map ks vsh =>
        have hS2 : es.all (fun p => hasShape ks p.1 && hasShape vsh p.2) = true := hS
        have hWF2 : (shapeWF ks && shapeWF vsh) = true := hWF
        simp only [Bool.and_eq_true] at hWF2
        have hG2 : (goodEntries es && keysDistinct es && !mapSeqShaped es) = true := hG
        simp only [Bool.and_eq_true, Bool.not_eq_true'] at hG2
        have hmem : ∀ e ∈ es, RTProp e.1 ∧ RTProp e.2 := by
          intro e he
          have h1 : sizeOf e < sizeOf es := List.sizeOf_lt_of_mem he
          have h2 : sizeOf (Data.map es) = 1 + sizeOf es := by simp
          obtain ⟨k, v⟩ := e
          have h3 : sizeOf (k, v) = 1 + sizeOf k + sizeOf v := by simp
          exact ⟨ih k (by omega), ih v (by omega)⟩
        obtain ⟨ps, hencs, hdecs⟩ := exists_entries_witnesses hWF2.1 hWF2.2 hS2 hG2.1.1 hmem
        have hpw := keysDistinct_pairwise hencs hG2.1.2
        have henc : to_value (Data.map es) = .ok (.table ps) := by
          show (do
            let t ← encodeEntriesInto [] es
            pure (Value.table t)) = _
          rw [encodeEntriesInto_spec hencs (t := [])
            (fun q hq => absurd hq (List.not_mem_nil q)) hpw]
          simp
        have hisseq : is_seq ps = false := by
          have h4 : mapSeqShaped es = is_seq ps := by
            unfold mapSeqShaped
            rw [henc]
          rw [← h4]
          exact hG2.2
        refine ⟨.table ps, henc, ?_, by simp [encodesNil]⟩
        show (if is_seq ps then Except.error (Err.invalidType "sequence" "a map")
          else do
            let es2 ← ps.mapM (fun p => do
              let dk ← from_value ks p.1
              let dv ← from_value vsh p.2
              pure (dk, dv))
            pure (Data.map es2)) = _
        rw [hisseq]
        simp only [Bool.false_eq_true, if_false]
        rw [mapM_entries hdecs]
        rfl
      case enum vs2 =>
        have hS2 : hasVariant vs2 (Data.map es) = true := hS
        rw [hasVariant_dNone vs2 (Data.map es) rfl] at hS2
        exact Bool.noConfusion hS2
    | strct fsD =>
      cases S <;> try exact Bool.noConfusion hS
      case strct fsS =>
        have hS2 : hasShapeFields fsS fsD = true := hS
        have hWF2 : (distinctNames (fsS.map Prod.fst) && shapeWFFields fsS) = true := hWF
        simp only [Bool.and_eq_true] at hWF2
        have hG2 : goodFields fsD = true := hG
        have hmem : ∀ f ∈ fsD, RTProp f.2 := by
          intro f hf
          have h1 : sizeOf f < sizeOf fsD := List.sizeOf_lt_of_mem hf
          have h2 : sizeOf (Data.strct fsD) = 1 + sizeOf fsD := by simp
          obtain ⟨fn, fd⟩ := f
          have h3 : sizeOf (fn, fd) = 1 + sizeOf fn + sizeOf fd := by simp
          exact ih fd (by omega)
        obtain ⟨vs, hall3⟩ := exists_fields_witnesses hWF2.2 hS2 hG2 hmem
        obtain ⟨hencF, hdecF⟩ := structLike_rt hall3 (distinctNames_nodup hWF2.1)
        refine ⟨.table (strTable (fsD.map Prod.fst) vs), ?_, ?_, by simp [encodesNil]⟩
        · show (do
            let t ← encodeFieldsInto [] fsD
            pure (Value.table t)) = _
          rw [hencF]
          rfl
        · show (do
            let flds ← structLike (fieldDecoders fsS) (.table (strTable (fsD.map Prod.fst) vs))
            pure (Data.strct flds)) = _
          rw [hdecF]
          rfl
      case enum vs2 =>
        have hS2 : hasVariant vs2 (Data.strct fsD) = true := hS
        rw [hasVariant_dNone vs2 (Data.strct fsD) rfl] at hS2
        exact Bool.noConfusion hS2
    | vUnit nm =>
      cases S <;> try exact Bool.noConfusion hS
      case enum variants =>
        have hS2 : hasVariant variants (Data.vUnit nm) = true := hS
        obtain ⟨pre, vk, post, heq, hpre, hmatch⟩ := hasVariant_decomp hS2 rfl
        cases vk with
        | unit =>
          refine ⟨.str nm, rfl, ?_, by simp [encodesNil]⟩
          show decodeVariant variants nm Option.none = _
          rw [heq, decodeVariant_skip ((nm, VShape.unit) :: post) nm Option.none hpre]
          exact decodeVariant_head_unit nm post
        | newtype s => exact Bool.noConfusion hmatch
        | tup ss => exact Bool.noConfusion hmatch
        | strct fs => exact Bool.noConfusion hmatch
    | vNew nm d2 =>
      cases S <;> try exact Bool.noConfusion hS
      case enum variants =>
        have hS2 : hasVariant variants (Data.vNew nm d2) = true := hS
        obtain ⟨pre, vk, post, heq, hpre, hmatch⟩ := hasVariant_decomp hS2 rfl
        cases vk with
        | unit => exact Bool.noConfusion hmatch
        | tup ss => exact Bool.noConfusion hmatch
        | strct fs => exact Bool.noConfusion hmatch
        | newtype s =>
          have hmatch2 : hasShape s d2 = true := hmatch
          have hWF2 : (distinctNames (variants.map Prod.fst) &&
              shapeWFVariants variants) = true := hWF
          simp only [Bool.and_eq_true] at hWF2
          have hmemv : (nm, VShape.newtype s) ∈ variants := by
            rw [heq]
            exact List.mem_append_right _ (List.mem_cons_self _ _)
          have hWFs : shapeWF s = true := shapeWFVariants_mem hWF2.2 hmemv
          have hG2 : (goodData d2 && !encodesNil d2) = true := hG
          simp only [Bool.and_eq_true, Bool.not_eq_true'] at hG2
          have hsz : sizeOf d2 ≤ n := by
            have h2 : sizeOf (Data.vNew nm d2) = 1 + sizeOf nm + sizeOf d2 := by simp
            omega
          obtain ⟨v2, henc, hdec, hiff⟩ := ih d2 hsz s hWFs hmatch2 hG2.1
          have hvnil : v2 ≠ Value.nil := by
            intro hv
            rw [hG2.2] at hiff
            exact Bool.noConfusion (hiff.mp hv)
          refine ⟨.table [(.str nm, v2)], ?_, ?_, by simp [encodesNil]⟩
          · show (do
              let v ← to_value d2
              pure (Value.table (tableSetRaw [] (Value.str nm) v))) = _
            rw [henc, okBind, tableSetRaw_of_ne_nil [] (Value.str nm) hvnil]
            rfl
          · show (do
              let (name, payload) ← enumVariantAndPayload [(Value.str nm, v2)]
              decodeVariant variants name payload) = _
            have hp : enumVariantAndPayload [(Value.str nm, v2)] =
              .ok (nm, Option.some v2) := rfl
            rw [hp, okBind]
            show decodeVariant variants nm (Option.some v2) = _
            rw [heq, decodeVariant_skip ((nm, VShape.newtype s) :: post) nm _ hpre]
            rw [decodeVariant_head_newtype, hdec, okBind]
            rfl
    | vTup nm ds =>
      cases S <;> try exact Bool.noConfusion hS
      case enum variants =>
        have hS2 : hasVariant variants (Data.vTup nm ds) = true := hS
        obtain ⟨pre, vk, post, heq, hpre, hmatch⟩ := hasVariant_decomp hS2 rfl
        cases vk with
        | unit => exact Bool.noConfusion hmatch
        | newtype s => exact Bool.noConfusion hmatch
        | strct fs => exact Bool.noConfusion hmatch
        | tup ss =>
          have hmatch2 : hasShapeList ss ds = true := hmatch
          have hWF2 : (distinctNames (variants.map Prod.fst) &&
              shapeWFVariants variants) = true := hWF
          simp only [Bool.and_eq_true] at hWF2
          have hmemv : (nm, VShape.tup ss) ∈ variants := by
            rw [heq]
            exact List.mem_append_right _ (List.mem_cons_self _ _)
          have hWFv : shapeWFList ss = true := shapeWFVariants_mem hWF2.2 hmemv
          have hG2 : goodList ds = true := hG
          have hmem : ∀ d2 ∈ ds, RTProp d2 := by
            intro d2 hd2
            refine ih d2 ?_
            have h1 : sizeOf d2 < sizeOf ds := List.sizeOf_lt_of_mem hd2
            have h2 : sizeOf (Data.vTup nm ds) = 1 + sizeOf nm + sizeOf ds := by simp
            omega
          obtain ⟨vs, hencs, hdec3⟩ := exists_tuple_witnesses hWFv hmatch2 hG2 hmem
          have hnil := forall₂_nonnil hencs
          refine ⟨.table [(.str nm, .table (enumFromInt 1 vs))], ?_, ?_, by simp [encodesNil]⟩
          · show (do
              let t ← encodeSeqInto [] 1 ds
              pure (Value.table (tableSetRaw [] (Value.str nm) (Value.table t)))) = _
            rw [encodeSeqInto_spec hencs (t := []) (i := 1)
              (fun p hp => absurd hp (List.not_mem_nil p))]
            rfl
          · show (do
              let (name, payload) ← enumVariantAndPayload
                [(Value.str nm, Value.table (enumFromInt 1 vs))]
              decodeVariant variants name payload) = _
            have hp : enumVariantAndPayload [(Value.str nm, Value.table (enumFromInt 1 vs))] =
              .ok (nm, Option.some (Value.table (enumFromInt 1 vs))) := rfl
            rw [hp, okBind]
            show decodeVariant variants nm (Option.some (Value.table (enumFromInt 1 vs))) = _
            rw [heq, decodeVariant_skip ((nm, VShape.tup ss) :: post) nm _ hpre]
            rw [decodeVariant_head_tup]
            rw [sequenceValues_enumFromInt vs hnil, decodeTupElems_spec hdec3 0, okBind]
            rfl
    | vStruct nm fsD =>
      cases S <;> try exact Bool.noConfusion hS
      case enum variants =>
        have hS2 : hasVariant variants (Data.vStruct nm fsD) = true := hS
        obtain ⟨pre, vk, post, heq, hpre, hmatch⟩ := hasVariant_decomp hS2 rfl
        cases vk with
        | unit => exact Bool.noConfusion hmatch
        | newtype s => exact Bool.noConfusion hmatch
        | tup ss => exact Bool.noConfusion hmatch
        | strct fsS2 =>
          have hmatch2 : hasShapeFields fsS2 fsD = true := hmatch
          have hWF2 : (distinctNames (variants.map Prod.fst) &&
              shapeWFVariants variants) = true := hWF
          simp only [Bool.and_eq_true] at hWF2
          have hmemv : (nm, VShape.strct fsS2) ∈ variants := by
            rw [heq]
            exact List.mem_append_right _ (List.mem_cons_self _ _)
          have hWFv : (distinctNames (fsS2.map Prod.fst) && shapeWFFields fsS2) = true :=
            shapeWFVariants_mem hWF2.2 hmemv
          simp only [Bool.and_eq_true] at hWFv
          have hG2 : goodFields fsD = true := hG
          have hmem : ∀ f ∈ fsD, RTProp f.2 := by
            intro f hf
            have h1 : sizeOf f < sizeOf fsD := List.sizeOf_lt_of_mem hf
            have h2 : sizeOf (Data.vStruct nm fsD) = 1 + sizeOf nm + sizeOf fsD := by simp
            obtain ⟨fn, fd⟩ := f
            have h3 : sizeOf (fn, fd) = 1 + sizeOf fn + sizeOf fd := by simp
            exact ih fd (by omega)
          obtain ⟨vs, hall3⟩ := exists_fields_witnesses hWFv.2 hmatch2 hG2 hmem
          obtain ⟨hencF, hdecF⟩ := structLike_rt hall3 (distinctNames_nodup hWFv.1)
          refine ⟨.table [(.str nm, .table (strTable (fsD.map Prod.fst) vs))], ?_, ?_,
            by simp [encodesNil]⟩
          · show (do
              let t ← encodeFieldsInto [] fsD
              pure (Value.table (tableSetRaw [] (Value.str nm) (Value.table t)))) = _
            rw [hencF, okBind]
            rfl
          · show (do
              let (name, payload) ← enumVariantAndPayload
                [(Value.str nm, Value.table (strTable (fsD.map Prod.fst) vs))]
              decodeVariant variants name payload) = _
            have hp : enumVariantAndPayload
                [(Value.str nm, Value.table (strTable (fsD.map Prod.fst) vs))] =
              .ok (nm, Option.some (Value.table (strTable (fsD.map Prod.fst) vs))) := rfl
            rw [hp, okBind]
            show decodeVariant variants nm
              (Option.some (Value.table (strTable (fsD.map Prod.fst) vs))) = _
            rw [heq, decodeVariant_skip ((nm, VShape.strct fsS2) :: post) nm _ hpre]
            rw [decodeVariant_head_strct, hdecF, okBind]
            rfl


/-- C1 (amended). Round-trip: for every typed value of a well-formed target
shape (struct field names and enum variant names distinct), decoding the
encoding returns the value, provided additionally that no value encoding to
Nil (None, unit, or Some of such) occurs in a table-entry position (sequence
or tuple element, map key or value, struct field, variant payload) or under
Some, that every map's encoded table is not sequence-shaped (so non-empty
and not keyed consecutively from 1), and that encoded map keys are pairwise
distinct. -/
theorem c1_roundtrip (d : Data) (S : Shape) (hWF : shapeWF S = true)
    (hS : hasShape S d = true) (hG : goodData d = true) :
    (to_value d >>= from_value S) = .ok d := by
  obtain ⟨v, henc, hdec, _⟩ := roundtrip_bounded (sizeOf d) d le_rfl S hWF hS hG
  rw [henc, okBind, hdec]

/-- C1 witness: the amended round-trip applied to a struct variant holding a
nested struct with a one-element sequence (the shape of the crate's own
tests). -/
theorem c1_roundtrip_witness :
    (to_value
        (Data.vStruct "Combo" [("params", Data.strct [("values", Data.seq [Data.int 1])])]) >>=
      from_value
        (Shape.enum
          [("Combo", VShape.strct [("params", Shape.strct [("values", Shape.seq .int)])])])) =
      .ok (Data.vStruct "Combo" [("params", Data.strct [("values", Data.seq [Data.int 1])])]) :=
  c1_roundtrip _ _ rfl rfl rfl


end SerdeMlua
